import Mathlib

/-!
Verification development for the notion-to-md exporter core
(src/exporter: NotionExporter).  The TypeScript source is shallowly
embedded: strings are lists of Unicode scalar values wrapped in String,
the Notion client, the markdown converter and the HTTP layer are an
explicit environment of pure functions, and every side effect (remote
call, filesystem write, log line) is recorded in an event trace.
-/

namespace NotionToMd

/-- The character class of the JS regular expression backslash-s, as used in
the sanitizer step that collapses whitespace runs:
tab, line feed, vertical tab, form feed, carriage return, space, no-break
space, ogham space mark, the U+2000 to U+200A range, line separator,
paragraph separator, narrow no-break space, medium mathematical space,
ideographic space, and the byte order mark. -/
def jsWhitespace (c : Char) : Bool :=
  c == '\t' || c == '\n' || c == Char.ofNat 11 || c == Char.ofNat 12 ||
  c == '\r' || c == ' ' || c == Char.ofNat 0xa0 || c == Char.ofNat 0x1680 ||
  (0x2000 ≤ c.toNat && c.toNat ≤ 0x200a) ||
  c == Char.ofNat 0x2028 || c == Char.ofNat 0x2029 ||
  c == Char.ofNat 0x202f || c == Char.ofNat 0x205f ||
  c == Char.ofNat 0x3000 || c == Char.ofNat 0xfeff

/-- The reserved filename characters replaced by the first sanitizer step,
the character class of the source regex: less-than, greater-than, colon,
double quote, slash, backslash, vertical bar, question mark, asterisk. -/
def reservedChar (c : Char) : Bool :=
  c == '<' || c == '>' || c == ':' || c == '"' || c == '/' ||
  c == '\\' || c == '|' || c == '?' || c == '*'

/-- Sanitizer step 1: replace every reserved character with a hyphen
(source: the global replace of the reserved character class). -/
def replaceReserved (l : List Char) : List Char :=
  l.map (fun c => if reservedChar c then '-' else c)

/-- Sanitizer step 2: replace every maximal run of JS whitespace with a
single hyphen (source: the global replace of one-or-more backslash-s). -/
def collapseWs : List Char → List Char
  | [] => []
  | [c] => if jsWhitespace c then ['-'] else [c]
  | c :: d :: rest =>
    if jsWhitespace c then
      if jsWhitespace d then collapseWs (d :: rest)
      else '-' :: collapseWs (d :: rest)
    else c :: collapseWs (d :: rest)

/-- Sanitizer step 3: replace every maximal run of hyphens with a single
hyphen (source: the global replace of one-or-more hyphens). -/
def collapseHyphens : List Char → List Char
  | [] => []
  | [c] => [c]
  | c :: d :: rest =>
    if c == '-' then
      if d == '-' then collapseHyphens (d :: rest)
      else '-' :: collapseHyphens (d :: rest)
    else c :: collapseHyphens (d :: rest)

/-- Sanitizer step 4a: the caret-hyphen alternative of the fourth replace
removes one leading hyphen when present. -/
def dropLeadHyphen : List Char → List Char
  | '-' :: rest => rest
  | l => l

/-- Sanitizer step 4b: the hyphen-dollar alternative of the fourth replace
removes one trailing hyphen when present. -/
def dropTrailHyphen (l : List Char) : List Char :=
  if l.getLast? = some '-' then l.dropLast else l

/-- Number of UTF-16 code units a scalar value occupies in a JS string. -/
def utf16Units (c : Char) : Nat :=
  if c.toNat < 0x10000 then 1 else 2

/-- UTF-16 length of a list of scalar values, as JS string length counts. -/
def utf16Len (l : List Char) : Nat := (l.map utf16Units).sum

/-- JS substring from 0 to n counts UTF-16 code units.  A scalar value
that would straddle the limit is dropped here: JS would keep its lone
lead surrogate, which Unicode scalar values cannot represent; the length
bound is unaffected. -/
def takeUnits (n : Nat) : List Char → List Char
  | [] => []
  | c :: rest =>
    if utf16Units c ≤ n then c :: takeUnits (n - utf16Units c) rest else []

/-- MAX_FILENAME_LENGTH from the source class. -/
def MAX_FILENAME_LENGTH : Nat := 200

/-- sanitizeFileName from the source: replace reserved characters with
hyphens, collapse whitespace runs to hyphens, collapse hyphen runs,
remove one leading and one trailing hyphen, truncate to 200 UTF-16 code
units, and fall back to the literal untitled when the result is empty. -/
def sanitizeFileName (fileName : String) : String :=
  let result := takeUnits MAX_FILENAME_LENGTH
    (dropTrailHyphen (dropLeadHyphen
      (collapseHyphens (collapseWs (replaceReserved fileName.data)))))
  if result.isEmpty then "untitled" else String.mk result

/-- Detects a run of two consecutive hyphens anywhere in the list. -/
def hasDoubleHyphen : List Char → Bool
  | [] => false
  | [_] => false
  | c :: d :: rest => (c == '-' && d == '-') || hasDoubleHyphen (d :: rest)

/-- A title of 250 letters whose 200th code unit is a hyphen: 199 letters,
one hyphen, then 50 more letters.  Exhibits the truncation edge of the
sanitizer. -/
def hyphenAt200 : String :=
  String.mk (List.replicate 199 'a' ++ '-' :: List.replicate 50 'b')

/-- One syntactic image occurrence matched by the source regex: bang,
open bracket, alt text free of closing brackets, close bracket, open
paren, nonempty target free of closing parens, close paren. -/
structure ImageMatch where
  alt : List Char
  url : List Char
deriving DecidableEq

/-- The full matched text of an image occurrence, as the regex match
index 0 reconstructs it. -/
def imageFull (m : ImageMatch) : List Char :=
  '!' :: '[' :: (m.alt ++ ']' :: '(' :: (m.url ++ [')']))

/-- Attempts the image regex at the current position; on success returns
the match together with the rest of the input after the match. -/
def matchImageAt (l : List Char) : Option (ImageMatch × List Char) :=
  match l with
  | c1 :: c2 :: rest =>
    if c1 = '!' ∧ c2 = '[' then
      let alt := rest.takeWhile (· ≠ ']')
      match rest.dropWhile (· ≠ ']') with
      | b1 :: b2 :: rest2 =>
        if b1 = ']' ∧ b2 = '(' then
          let url := rest2.takeWhile (· ≠ ')')
          if url.isEmpty then none
          else
            match rest2.dropWhile (· ≠ ')') with
            | b3 :: rest3 => if b3 = ')' then some (⟨alt, url⟩, rest3) else none
            | [] => none
        else none
      | _ => none
    else none
  | _ => none

/-- The match scan with explicit fuel; every step consumes at least one
character, so fuel equal to the input length is always enough. -/
def scanImagesGo : Nat → List Char → List ImageMatch
  | 0, _ => []
  | fuel + 1, l =>
    match l with
    | [] => []
    | c :: rest =>
      match matchImageAt (c :: rest) with
      | some (m, rem) => m :: scanImagesGo fuel rem
      | none => scanImagesGo fuel rest

/-- All image occurrences of a document in order of appearance, with the
non-overlapping continuation of a global regex matchAll: after a match
scanning resumes past it, after a failed position scanning advances one
character. -/
def scanImages (l : List Char) : List ImageMatch := scanImagesGo l.length l

/-- Splits a list at the first occurrence of a pattern, returning the
text before and after the occurrence.  Models the search of the JS
String replace with a string pattern. -/
def splitFirst (pat : List Char) : List Char → Option (List Char × List Char)
  | [] => if pat.isEmpty then some ([], []) else none
  | c :: rest =>
    if pat.isPrefixOf (c :: rest) then some ([], (c :: rest).drop pat.length)
    else
      match splitFirst pat rest with
      | some (pre, post) => some (c :: pre, post)
      | none => none

/-- Substring test, as the JS String includes method. -/
def containsSub (pat l : List Char) : Bool := (splitFirst pat l).isSome

/-- JS GetSubstitution for a string pattern: a dollar before a dollar
yields a literal dollar, before an ampersand the matched text, before a
backquote the text preceding the match, before a quote the text
following it; every other character is literal (capture references do
not apply to string patterns). -/
def expandReplacement (matched before after : List Char) : List Char → List Char
  | [] => []
  | '$' :: '$' :: rest => '$' :: expandReplacement matched before after rest
  | '$' :: '&' :: rest => matched ++ expandReplacement matched before after rest
  | '$' :: c :: rest =>
    if c = Char.ofNat 96 then before ++ expandReplacement matched before after rest
    else if c = Char.ofNat 39 then after ++ expandReplacement matched before after rest
    else '$' :: c :: expandReplacement matched before after rest
  | c :: rest => c :: expandReplacement matched before after rest

/-- JS String replace with a string pattern: rewrites the first
occurrence of the pattern by the expanded replacement; a string without
the pattern is returned unchanged. -/
def replaceFirst (s pat rep : List Char) : List Char :=
  match splitFirst pat s with
  | none => s
  | some (pre, post) => pre ++ expandReplacement pat pre post rep ++ post

/-- Hostname and pathname of a parsed URL. -/
structure UrlParts where
  hostname : List Char
  pathname : List Char
deriving DecidableEq

/-- The host portion of an authority: after the last at sign. -/
def afterLastAt (l : List Char) : List Char :=
  (l.reverse.takeWhile (· ≠ '@')).reverse

/-- Models the WHATWG URL constructor far enough for the http and https
URLs the exporter feeds it: authority up to the first slash, question
mark or hash; userinfo stripped at the last at sign; port stripped at a
colon; host ASCII-lowercased; path up to the query or fragment,
defaulting to a single slash.  Returns none for an empty host, where
the constructor throws. -/
def parseHttpUrl (url : List Char) : Option UrlParts :=
  let rest :=
    if ("http://".data).isPrefixOf url then url.drop 7
    else if ("https://".data).isPrefixOf url then url.drop 8
    else []
  let authority := rest.takeWhile (fun c => c ≠ '/' && c ≠ '?' && c ≠ '#')
  let afterAuth := rest.dropWhile (fun c => c ≠ '/' && c ≠ '?' && c ≠ '#')
  let host := (afterLastAt authority).takeWhile (· ≠ ':')
  if host.isEmpty then none
  else
    let path := afterAuth.takeWhile (fun c => c ≠ '?' && c ≠ '#')
    some ⟨host.map Char.toLower, if path.isEmpty then ['/'] else path⟩

/-- ASCII letter or digit, the character class of the extension regex. -/
def isAlnumAscii (c : Char) : Bool :=
  ('a' ≤ c && c ≤ 'z') || ('A' ≤ c && c ≤ 'Z') || ('0' ≤ c && c ≤ '9')

/-- First match of the extension regex over the pathname: a dot followed
by a nonempty maximal ASCII alphanumeric run that ends at a question
mark or at the end of the string; the run is the captured extension. -/
def extFrom : List Char → Option (List Char)
  | [] => none
  | '.' :: rest =>
    let run := rest.takeWhile isAlnumAscii
    let after := rest.dropWhile isAlnumAscii
    if !run.isEmpty && (after.isEmpty || after.head? = some '?') then some run
    else extFrom rest
  | _ :: rest => extFrom rest

/-- One text run of a title property; the plain text field may be
absent. -/
structure TitleRun where
  plain_text : Option String
deriving DecidableEq

/-- One property of a full page record: its type tag and, when the
title field is present and an array, its runs. -/
structure PageProperty where
  type : String
  title : Option (List TitleRun)
deriving DecidableEq

/-- getPageTitle from the source: the first property of type title with
a nonempty run array yields the concatenation of the plain texts of its
runs, an absent plain text contributing the empty string; otherwise the
literal Untitled. -/
def getPageTitle (properties : List PageProperty) : String :=
  match properties.find? (fun p =>
      p.type == "title" &&
      match p.title with
      | some ts => !ts.isEmpty
      | none => false) with
  | some p => String.join ((p.title.getD []).map (fun t => t.plain_text.getD ""))
  | none => "Untitled"

/-- Outcome of one pages-retrieve call: a thrown request error, a
partial record without properties (insufficient sharing permission), or
a full record with its properties. -/
inductive RetrievalResult where
  | failure
  | restricted
  | page (properties : List PageProperty)
deriving DecidableEq

/-- One block of a child listing: whether the type field is present,
the type tag, and the block id. -/
structure Block where
  hasTypeField : Bool
  type : String
  id : String
deriving DecidableEq

/-- One result of the workspace search: its id and whether the record
carries properties (the type guard of exportAllPages). -/
structure SearchItem where
  id : String
  hasProperties : Bool
deriving DecidableEq

/-- Observable events of one export run: remote calls, filesystem
effects, log lines.  Filesystem and console output of the source are
recorded rather than performed. -/
inductive Ev where
  | apiSearch
  | apiRetrieve (id : String)
  | apiListChildren (id : String)
  | apiConvert (id : String)
  | fsMkdir (path : String)
  | fsWrite (path : String) (content : String)
  | logStart
  | logSkip (id : String)
  | logExporting (title : String)
  | logError (id : String)
  | logChildError (id : String)
  | logSkipImage (url : String)
  | logDownloaded (name : String)
  | logImageError (url : String)
  | logComplete (dir : String) (count : Nat)
deriving DecidableEq

/-- The external collaborators of one run, all pure: page retrieval,
child-block listing (the concatenation of all batches the cursor
protocol yields, in order), markdown conversion (none models a thrown
conversion error), image download outcome (the downloaded bytes, or
none for a rejected download), the concatenated workspace search
results, and the configuration. -/
structure Env where
  retrieve : String → RetrievalResult
  childBlocks : String → List Block
  convert : String → Option String
  download : String → Option String
  search : List SearchItem
  rootPageId : Option String
  outputDir : String

/-- path.join for the simple segment concatenations the exporter
performs. -/
def pathJoin (a b : String) : String := a ++ "/" ++ b

/-- Decimal digits of a number, highest first, with fuel one more than
the number itself (ample, since the number bounds its digit count). -/
def natDigitsGo : Nat → Nat → List Char
  | 0, _ => []
  | fuel + 1, n =>
    if n < 10 then [Char.ofNat (48 + n)]
    else natDigitsGo fuel (n / 10) ++ [Char.ofNat (48 + n % 10)]

/-- Decimal rendering of the sequence counter, as the JS template
literal prints it. -/
def natToString (n : Nat) : String := String.mk (natDigitsGo (n + 1) n)

/-- Accumulator of the image loop: current document text, next sequence
number, events so far. -/
structure ImgAcc where
  md : List Char
  counter : Nat
  evs : List Ev

/-- One iteration of the image loop of processImages: skip non-network
targets silently, log and skip hosts outside notion.so, log a failure
for an unparseable URL or a rejected download keeping the original
text, and on success write the downloaded file, rewrite the first
occurrence of the matched text, log, and advance the counter. -/
def processImagesStep (env : Env) (imagesDir : String) (acc : ImgAcc)
    (m : ImageMatch) : ImgAcc :=
  let imageUrl := String.mk m.url
  if !(("http://".data).isPrefixOf m.url) && !(("https://".data).isPrefixOf m.url) then
    acc
  else
    match parseHttpUrl m.url with
    | none => { acc with evs := acc.evs ++ [Ev.logImageError imageUrl] }
    | some parts =>
      if !(containsSub ("notion.so".data) parts.hostname) then
        { acc with evs := acc.evs ++ [Ev.logSkipImage imageUrl] }
      else
        let ext := (extFrom parts.pathname).getD ("png".data)
        let imageFileName := "image-" ++ natToString acc.counter ++ "." ++ String.mk ext
        let localImagePath := pathJoin imagesDir imageFileName
        match env.download imageUrl with
        | none => { acc with evs := acc.evs ++ [Ev.logImageError imageUrl] }
        | some bytes =>
          let relativeImagePath := "./images/" ++ imageFileName
          let newImageMarkdown :=
            '!' :: '[' :: (m.alt ++ ']' :: '(' :: (relativeImagePath.data ++ [')']))
          { md := replaceFirst acc.md (imageFull m) newImageMarkdown,
            counter := acc.counter + 1,
            evs := acc.evs ++ [Ev.fsWrite localImagePath bytes,
              Ev.logDownloaded imageFileName] }

/-- processImages from the source: collect all image matches; with none,
return the input unchanged with no effects; otherwise create the images
directory beside the document and run the match loop left to right. -/
def processImages (env : Env) (markdown : String) (parentDir : String) :
    String × List Ev :=
  let ms := scanImages markdown.data
  if ms.isEmpty then (markdown, [])
  else
    let imagesDir := pathJoin parentDir "images"
    let final := ms.foldl (processImagesStep env imagesDir)
      ⟨markdown.data, 1, [Ev.fsMkdir imagesDir]⟩
    (String.mk final.md, final.evs)

/-- Result of one HTTP get: a network error event, or a response with a
status code and an optional Location header. -/
inductive HttpResult where
  | netError
  | response (statusCode : Nat) (location : Option String)
deriving DecidableEq

/-- downloadImage from the source against a server oracle, with fuel
making the recursion well founded in the embedding: a 301 or 302 with a
Location re-issues the request against the target, a 301 or 302 without
one and any other non-200 status rejects, a 200 resolves; none records
that the fuel ran out before the promise settled. -/
def downloadImage (server : String → HttpResult) : Nat → String → Option Bool
  | 0, _ => none
  | fuel + 1, url =>
    match server url with
    | .netError => some false
    | .response code loc =>
      if code = 301 ∨ code = 302 then
        match loc with
        | some redirect => downloadImage server fuel redirect
        | none => some false
      else if code ≠ 200 then some false
      else some true

/-- Whether the redirect chain from a URL reaches a non-redirecting
response within n steps. -/
def chainTerminates (server : String → HttpResult) : Nat → String → Bool
  | 0, url =>
    match server url with
    | .netError => true
    | .response code loc =>
      if code = 301 ∨ code = 302 then
        match loc with
        | some _ => false
        | none => true
      else true
  | n + 1, url =>
    match server url with
    | .netError => true
    | .response code loc =>
      if code = 301 ∨ code = 302 then
        match loc with
        | some redirect => chainTerminates server n redirect
        | none => true
      else true

/-- A server whose two URLs redirect to each other. -/
def cyclicServer : String → HttpResult := fun url =>
  if url = "https://www.notion.so/a" then
    HttpResult.response 301 (some "https://www.notion.so/b")
  else HttpResult.response 302 (some "https://www.notion.so/a")

/-- One iteration of the child listing loop: a block of type child page
has its full record retrieved; it is pushed when full, dropped silently
when partial, and logged when the retrieval throws; any other block is
ignored. -/
def childStep (env : Env) (acc : List (String × List PageProperty) × List Ev)
    (block : Block) : List (String × List PageProperty) × List Ev :=
  if block.hasTypeField && block.type == "child_page" then
    match env.retrieve block.id with
    | .failure =>
      (acc.1, acc.2 ++ [Ev.apiRetrieve block.id, Ev.logChildError block.id])
    | .restricted => (acc.1, acc.2 ++ [Ev.apiRetrieve block.id])
    | .page props =>
      (acc.1 ++ [(block.id, props)], acc.2 ++ [Ev.apiRetrieve block.id])
  else acc

/-- getChildPages from the source: walk the listed blocks in order with
the child listing loop. -/
def getChildPages (env : Env) (pageId : String) :
    List (String × List PageProperty) × List Ev :=
  (env.childBlocks pageId).foldl (childStep env) ([], [Ev.apiListChildren pageId])

/-- One child link line of the navigation section. -/
def childLink (fileName : String) (c : String × List PageProperty) : String :=
  let childTitle := getPageTitle c.2
  let childFileName := sanitizeFileName childTitle
  "- [" ++ childTitle ++ "](./" ++ fileName ++ "/" ++ childFileName ++ ".md)\n"

/-- The navigation section appended when children exist: the Subnotes
heading followed by one link line per child, in listing order. -/
def navSection (fileName : String) (children : List (String × List PageProperty)) :
    String :=
  children.foldl (fun acc c => acc ++ childLink fileName c) "\n\n## Subnotes\n\n"

/-- The child loop of exportPage, abstracted over the recursive export
at the next lower fuel: recursive exports in listing order, threading
the processed set. -/
def exportChildrenGo
    (rec : String → String → Finset String → Option (Finset String × List Ev)) :
    List (String × List PageProperty) → String → Finset String →
      Option (Finset String × List Ev)
  | [], _, processed => some (processed, [])
  | c :: cs, dir, processed =>
    match rec c.1 dir processed with
    | none => none
    | some (processed1, evs1) =>
      match exportChildrenGo rec cs dir processed1 with
      | none => none
      | some (processed2, evs2) => some (processed2, evs1 ++ evs2)

/-- exportPage from the source: return on a processed id, otherwise
insert it before the retrieve; a thrown retrieval is caught and logged,
a partial record is logged and skipped, and otherwise the page is
listed, converted (a thrown conversion caught and logged), its images
rehosted, the navigation section appended when children exist, the file
written, and the children exported recursively into the child
directory.  Fuel bounds the recursion depth of the embedding; none
records fuel exhaustion, never a source outcome. -/
def exportPage (env : Env) : Nat → String → String → Finset String →
    Option (Finset String × List Ev)
  | 0, pageId, _, processed =>
    if pageId ∈ processed then some (processed, []) else none
  | fuel' + 1, pageId, parentDir, processed =>
    if pageId ∈ processed then some (processed, [])
    else
      let processed1 := insert pageId processed
      match env.retrieve pageId with
      | .failure => some (processed1, [Ev.apiRetrieve pageId, Ev.logError pageId])
      | .restricted => some (processed1, [Ev.apiRetrieve pageId, Ev.logSkip pageId])
      | .page props =>
        let title := getPageTitle props
        let cl := getChildPages env pageId
        let children := cl.1
        let preEvs := [Ev.apiRetrieve pageId, Ev.logExporting title] ++ cl.2
        match env.convert pageId with
        | none =>
          some (processed1, preEvs ++ [Ev.apiConvert pageId, Ev.logError pageId])
        | some mdString =>
          let fileName := sanitizeFileName title
          let filePath := pathJoin parentDir (fileName ++ ".md")
          let pi := processImages env mdString parentDir
          let finalMarkdown :=
            if children.length > 0 then pi.1 ++ navSection fileName children
            else pi.1
          let evs := preEvs ++ [Ev.apiConvert pageId] ++ pi.2 ++
            [Ev.fsWrite filePath finalMarkdown]
          if children.length > 0 then
            let childDir := pathJoin parentDir fileName
            match exportChildrenGo (fun q d st => exportPage env fuel' q d st)
                children childDir processed1 with
            | none => none
            | some (processed2, childEvs) =>
              some (processed2, evs ++ [Ev.fsMkdir childDir] ++ childEvs)
          else some (processed1, evs)

/-- The child loop at a given fuel level. -/
def exportChildren (env : Env) (fuel : Nat)
    (children : List (String × List PageProperty)) (dir : String)
    (processed : Finset String) : Option (Finset String × List Ev) :=
  exportChildrenGo (fun q d st => exportPage env fuel q d st) children dir processed

/-- The loop of exportAllPages over the search results, guarded by the
properties type check. -/
def exportSearchResults (env : Env) (fuel : Nat) (items : List SearchItem)
    (processed : Finset String) : Option (Finset String × List Ev) :=
  match items with
  | [] => some (processed, [])
  | it :: rest =>
    if it.hasProperties then
      match exportPage env fuel it.id env.outputDir processed with
      | none => none
      | some (p1, e1) =>
        match exportSearchResults env fuel rest p1 with
        | none => none
        | some (p2, e2) => some (p2, e1 ++ e2)
    else exportSearchResults env fuel rest processed

/-- exportAll from the source: log, create the output root, export from
the configured root page when its id is truthy and otherwise from the
workspace search, then log the output path and the processed count. -/
def exportAll (env : Env) (fuel : Nat) : Option (Finset String × List Ev) :=
  let startEvs := [Ev.logStart, Ev.fsMkdir env.outputDir]
  let searchRun : Option (Finset String × List Ev) :=
    match exportSearchResults env fuel env.search ∅ with
    | none => none
    | some (p, e) =>
      some (p, startEvs ++ [Ev.apiSearch] ++ e ++ [Ev.logComplete env.outputDir p.card])
  match env.rootPageId with
  | some rootId =>
    if rootId.isEmpty then searchRun
    else
      match exportPage env fuel rootId env.outputDir ∅ with
      | none => none
      | some (p, e) =>
        some (p, startEvs ++ e ++ [Ev.logComplete env.outputDir p.card])
  | none => searchRun

/-- An environment whose downloads always succeed. -/
def dlEnv : Env := {
  retrieve := fun _ => .restricted
  childBlocks := fun _ => []
  convert := fun _ => none
  download := fun _ => some "IMGBYTES"
  search := []
  rootPageId := none
  outputDir := "out" }

/-- An environment where the download of the x image fails and every
other download succeeds. -/
def dlMixedEnv : Env :=
  { dlEnv with download := fun url =>
      if url = "https://www.notion.so/x.png" then none else some "IMGBYTES" }

/-- An environment whose downloads always fail. -/
def dlFailEnv : Env :=
  { dlEnv with download := fun _ => none }

/-- A document whose first image occurrence has a target that itself
starts with an image opening, so that the text of the second occurrence
also appears inside the span of the first. -/
def aliasDoc : String :=
  "![b](![a](https://www.notion.so/x.png)![a](https://www.notion.so/x.png)"

/-- A server redirecting once and then serving the image. -/
def oneHopServer : String → HttpResult := fun url =>
  if url = "https://www.notion.so/start" then
    HttpResult.response 302 (some "https://www.notion.so/final")
  else HttpResult.response 200 none

/-- A server answering not found to everything. -/
def notFoundServer : String → HttpResult := fun _ => HttpResult.response 404 none

/-- Number of conversion calls for a given page id in a trace; one
conversion stands for one processing of the page body. -/
def convertCount (tr : List Ev) (q : String) : Nat :=
  tr.countP (fun e => e == Ev.apiConvert q)

/-- The event kinds the image loop can append: an image file write, a
skip log, a success log, or a failure log. -/
def imgEv : Ev → Bool
  | .fsWrite _ _ => true
  | .logSkipImage _ => true
  | .logDownloaded _ => true
  | .logImageError _ => true
  | _ => false

/-- Local filesystem state: file contents by path and the set of
directories. -/
@[ext]
structure FileSystem where
  files : String → Option String
  dirs : String → Bool

/-- Applying one event to the filesystem: writes overwrite, directory
creation is idempotent, every other event has no filesystem effect. -/
def applyEv (fs : FileSystem) : Ev → FileSystem
  | .fsWrite p c => { fs with files := fun q => if q = p then some c else fs.files q }
  | .fsMkdir p => { fs with dirs := fun q => if q = p then true else fs.dirs q }
  | _ => fs

/-- Applying a whole trace in order. -/
def applyTrace (fs : FileSystem) (t : List Ev) : FileSystem := t.foldl applyEv fs

/-- The content of the last write to a path in a trace. -/
def lastWrite : List Ev → String → Option String
  | [], _ => none
  | e :: rest, p =>
    match lastWrite rest p with
    | some c => some c
    | none =>
      match e with
      | Ev.fsWrite q c => if p = q then some c else none
      | _ => none

/-- Whether a trace creates a given directory. -/
def mkdirIn : List Ev → String → Bool
  | [], _ => false
  | e :: rest, p =>
    mkdirIn rest p ||
      (match e with
       | Ev.fsMkdir q => p = q
       | _ => false)

/-- The empty filesystem. -/
def emptyFS : FileSystem := ⟨fun _ => none, fun _ => false⟩

/-- A title property with one run of the given plain text. -/
def titleProp (t : String) : PageProperty := ⟨"title", some [⟨some t⟩]⟩

/-- A two-page environment whose pages list each other as children:
page a has child b and page b has child a. -/
def cyclicEnv : Env := {
  retrieve := fun id =>
    if id = "a" then .page [titleProp "A"]
    else if id = "b" then .page [titleProp "B"]
    else .restricted
  childBlocks := fun id =>
    if id = "a" then [⟨true, "child_page", "b"⟩]
    else if id = "b" then [⟨true, "child_page", "a"⟩]
    else []
  convert := fun _ => some "body"
  download := fun _ => none
  search := []
  rootPageId := some "a"
  outputDir := "out" }

/-- A small concrete workspace: a parent page with two full children, a
restricted child block, a block without a type field, a paragraph
block; a page whose conversion throws; a page whose retrieval throws;
everything else restricted. -/
def witEnv : Env := {
  retrieve := fun id =>
    if id = "p" then .page [titleProp "Parent"]
    else if id = "c1" then .page [titleProp "Child A"]
    else if id = "c2" then .page [titleProp "Child B"]
    else if id = "bad" then .page [titleProp "Bad"]
    else if id = "err" then .failure
    else .restricted
  childBlocks := fun id =>
    if id = "p" then
      [⟨true, "child_page", "c1"⟩, ⟨true, "child_page", "c2"⟩,
       ⟨true, "child_page", "r"⟩, ⟨false, "child_page", "x"⟩,
       ⟨true, "paragraph", "y"⟩]
    else []
  convert := fun id => if id = "bad" then none else some "hello"
  download := fun _ => none
  search := [⟨"p", true⟩, ⟨"d", false⟩]
  rootPageId := none
  outputDir := "out" }

lemma matchImageAt_length {l rem : List Char} {m : ImageMatch}
    (h : matchImageAt l = some (m, rem)) : rem.length < l.length := by
  cases l with
  | nil => simp [matchImageAt] at h
  | cons c1 l1 =>
    cases l1 with
    | nil => simp [matchImageAt] at h
    | cons c2 rest =>
      simp only [matchImageAt] at h
      split at h
      case isFalse => exact absurd h (by simp)
      case isTrue =>
        split at h
        case h_2 => exact absurd h (by simp)
        case h_1 b1 b2 rest2 heq =>
          split at h
          case isFalse => exact absurd h (by simp)
          case isTrue =>
            split at h
            case isTrue => exact absurd h (by simp)
            case isFalse =>
              split at h
              case h_2 => exact absurd h (by simp)
              case h_1 b3 rest3 heq2 =>
                split at h
                case isFalse => exact absurd h (by simp)
                case isTrue =>
                  simp only [Option.some_inj, Prod.mk.injEq] at h
                  obtain ⟨-, rfl⟩ := h
                  have h1 : rest.length = (rest.takeWhile (· ≠ ']')).length +
                      (b1 :: b2 :: rest2).length := by
                    conv_lhs => rw [← List.takeWhile_append_dropWhile
                      (p := (· ≠ ']')) (l := rest)]
                    rw [heq, List.length_append]
                  have h2 : rest2.length = (rest2.takeWhile (· ≠ ')')).length +
                      (b3 :: rest3).length := by
                    conv_lhs => rw [← List.takeWhile_append_dropWhile
                      (p := (· ≠ ')')) (l := rest2)]
                    rw [heq2, List.length_append]
                  simp only [List.length_cons] at *
                  omega

lemma scanImagesGo_fuel : ∀ (f1 : Nat) (l : List Char) (f2 : Nat),
    l.length ≤ f1 → l.length ≤ f2 → scanImagesGo f1 l = scanImagesGo f2 l := by
  intro f1
  induction f1 with
  | zero =>
    intro l f2 h1 _
    have : l = [] := List.eq_nil_of_length_eq_zero (by omega)
    subst this
    cases f2 with
    | zero => rfl
    | succ g => rfl
  | succ f ih =>
    intro l f2 h1 h2
    cases l with
    | nil =>
      cases f2 with
      | zero => rfl
      | succ g => rfl
    | cons c rest =>
      cases f2 with
      | zero => simp at h2
      | succ g =>
        show (match matchImageAt (c :: rest) with
          | some (m, rem) => m :: scanImagesGo f rem
          | none => scanImagesGo f rest) =
          (match matchImageAt (c :: rest) with
          | some (m, rem) => m :: scanImagesGo g rem
          | none => scanImagesGo g rest)
        cases hm : matchImageAt (c :: rest) with
        | none =>
          simp only
          exact ih rest g (by simp at h1; omega) (by simp at h2; omega)
        | some p =>
          obtain ⟨m, rem⟩ := p
          simp only
          have hlt := matchImageAt_length hm
          simp only [List.length_cons] at hlt h1 h2
          rw [ih rem g (by omega) (by omega)]

lemma replaceReserved_no_reserved {l : List Char} :
    ∀ c ∈ replaceReserved l, reservedChar c = false := by
  intro c hc
  simp only [replaceReserved, List.mem_map] at hc
  obtain ⟨a, _, rfl⟩ := hc
  by_cases h : reservedChar a
  · simp only [h, if_true]; decide
  · simp [h]

lemma collapseWs_mem {l : List Char} :
    ∀ c ∈ collapseWs l, c = '-' ∨ (c ∈ l ∧ jsWhitespace c = false) := by
  induction l using collapseWs.induct with
  | case1 => simp [collapseWs]
  | case2 c h => simp [collapseWs, h]
  | case3 c h =>
    simp only [Bool.not_eq_true] at h
    simp [collapseWs, h]
  | case4 c d rest h1 h2 ih =>
    intro x hx
    simp only [collapseWs, h1, h2] at hx
    simp only [if_true] at hx
    rcases ih x hx with h | ⟨hm, hw⟩
    · exact Or.inl h
    · exact Or.inr ⟨List.mem_cons_of_mem _ hm, hw⟩
  | case5 c d rest h1 h2 ih =>
    intro x hx
    simp only [Bool.not_eq_true] at h2
    simp [collapseWs, h1, h2] at hx
    rcases hx with rfl | hx
    · exact Or.inl rfl
    · rcases ih x hx with h | ⟨hm, hw⟩
      · exact Or.inl h
      · exact Or.inr ⟨List.mem_cons_of_mem _ hm, hw⟩
  | case6 c d rest h1 ih =>
    intro x hx
    simp only [Bool.not_eq_true] at h1
    simp [collapseWs, h1] at hx
    rcases hx with rfl | hx
    · exact Or.inr ⟨List.mem_cons_self _ _, h1⟩
    · rcases ih x hx with h | ⟨hm, hw⟩
      · exact Or.inl h
      · exact Or.inr ⟨List.mem_cons_of_mem _ hm, hw⟩

lemma collapseWs_no_ws {l : List Char} :
    ∀ c ∈ collapseWs l, jsWhitespace c = false := by
  intro c hc
  rcases collapseWs_mem c hc with rfl | ⟨_, hw⟩
  · decide
  · exact hw

lemma collapseHyphens_mem {l : List Char} :
    ∀ c ∈ collapseHyphens l, c ∈ l := by
  induction l using collapseHyphens.induct with
  | case1 => simp [collapseHyphens]
  | case2 c => simp [collapseHyphens]
  | case3 c d rest h1 h2 ih =>
    intro x hx
    simp only [collapseHyphens, h1, h2, if_true] at hx
    exact List.mem_cons_of_mem _ (ih x hx)
  | case4 c d rest h1 h2 ih =>
    intro x hx
    simp only [Bool.not_eq_true] at h2
    simp [collapseHyphens, h1, h2] at hx
    rcases hx with rfl | hx
    · simp only [beq_iff_eq] at h1
      exact h1 ▸ List.mem_cons_self _ _
    · exact List.mem_cons_of_mem _ (ih x hx)
  | case5 c d rest h1 ih =>
    intro x hx
    simp only [Bool.not_eq_true] at h1
    simp [collapseHyphens, h1] at hx
    rcases hx with rfl | hx
    · exact List.mem_cons_self _ _
    · exact List.mem_cons_of_mem _ (ih x hx)

lemma collapseHyphens_head {l : List Char} :
    (collapseHyphens l).head? = l.head? := by
  induction l using collapseHyphens.induct with
  | case1 => simp [collapseHyphens]
  | case2 c => simp [collapseHyphens]
  | case3 c d rest h1 h2 ih =>
    simp only [collapseHyphens, h1, h2, if_true, ih]
    simp only [beq_iff_eq] at h1 h2
    simp [h1, h2]
  | case4 c d rest h1 h2 ih =>
    simp only [Bool.not_eq_true] at h2
    simp only [beq_iff_eq] at h1
    simp [collapseHyphens, h1, h2]
  | case5 c d rest h1 ih =>
    simp only [Bool.not_eq_true] at h1
    simp [collapseHyphens, h1]

lemma collapseHyphens_no_double {l : List Char} :
    hasDoubleHyphen (collapseHyphens l) = false := by
  induction l using collapseHyphens.induct with
  | case1 => simp [collapseHyphens, hasDoubleHyphen]
  | case2 c => simp [collapseHyphens, hasDoubleHyphen]
  | case3 c d rest h1 h2 ih => simpa [collapseHyphens, h1, h2] using ih
  | case4 c d rest h1 h2 ih =>
    simp only [Bool.not_eq_true] at h2
    have hstep : collapseHyphens (c :: d :: rest) = '-' :: collapseHyphens (d :: rest) := by
      simp [collapseHyphens, h1, h2]
    rw [hstep]
    have hh : (collapseHyphens (d :: rest)).head? = some d := by
      simp [collapseHyphens_head]
    cases hx : collapseHyphens (d :: rest) with
    | nil => simp [hasDoubleHyphen]
    | cons e tail =>
      rw [hx] at hh ih
      simp only [List.head?_cons, Option.some_inj] at hh
      subst hh
      simp [hasDoubleHyphen, h2, ih]
  | case5 c d rest h1 ih =>
    simp only [Bool.not_eq_true] at h1
    have hstep : collapseHyphens (c :: d :: rest) = c :: collapseHyphens (d :: rest) := by
      simp [collapseHyphens, h1]
    rw [hstep]
    have hh : (collapseHyphens (d :: rest)).head? = some d := by
      simp [collapseHyphens_head]
    cases hx : collapseHyphens (d :: rest) with
    | nil => simp [hasDoubleHyphen]
    | cons e tail =>
      rw [hx] at hh ih
      simp only [List.head?_cons, Option.some_inj] at hh
      subst hh
      simp [hasDoubleHyphen, h1, ih]

lemma hasDoubleHyphen_tail {c : Char} {l : List Char}
    (h : hasDoubleHyphen (c :: l) = false) : hasDoubleHyphen l = false := by
  rcases l with _ | ⟨d, rest⟩
  · simp [hasDoubleHyphen]
  · simp only [hasDoubleHyphen, Bool.or_eq_false_iff] at h
    exact h.2

lemma dropLeadHyphen_subset {l : List Char} :
    ∀ c ∈ dropLeadHyphen l, c ∈ l := by
  intro c hc
  rcases l with _ | ⟨d, rest⟩
  · simp [dropLeadHyphen] at hc
  · by_cases h : d = '-'
    · subst h
      simp only [dropLeadHyphen] at hc
      exact List.mem_cons_of_mem _ hc
    · have : dropLeadHyphen (d :: rest) = d :: rest := by
        rcases d with ⟨v, hv⟩
        simp only [dropLeadHyphen]
        split
        · rename_i heq
          exact absurd (by injection heq) h
        · rfl
      rw [this] at hc
      exact hc

lemma dropLeadHyphen_eq_of_head {l : List Char} (h : l.head? ≠ some '-') :
    dropLeadHyphen l = l := by
  rcases l with _ | ⟨d, rest⟩
  · rfl
  · simp only [List.head?_cons, ne_eq, Option.some_inj] at h
    simp only [dropLeadHyphen]
    split
    · rename_i heq
      exact absurd (by injection heq) h
    · rfl

lemma dropLeadHyphen_cons_hyphen {rest : List Char} :
    dropLeadHyphen ('-' :: rest) = rest := rfl

lemma dropLeadHyphen_no_double {l : List Char}
    (h : hasDoubleHyphen l = false) :
    hasDoubleHyphen (dropLeadHyphen l) = false := by
  rcases l with _ | ⟨d, rest⟩
  · simpa [dropLeadHyphen] using h
  · by_cases hd : d = '-'
    · subst hd
      rw [dropLeadHyphen_cons_hyphen]
      exact hasDoubleHyphen_tail h
    · rw [dropLeadHyphen_eq_of_head (by simpa using hd)]
      exact h

lemma dropLeadHyphen_head {l : List Char}
    (h : hasDoubleHyphen l = false) :
    (dropLeadHyphen l).head? ≠ some '-' := by
  rcases l with _ | ⟨d, rest⟩
  · simp [dropLeadHyphen]
  · by_cases hd : d = '-'
    · subst hd
      rw [dropLeadHyphen_cons_hyphen]
      rcases rest with _ | ⟨e, rest2⟩
      · simp
      · simp only [hasDoubleHyphen, Bool.or_eq_false_iff, Bool.and_eq_false_iff] at h
        rcases h.1 with h1 | h1 <;> simp_all
    · rw [dropLeadHyphen_eq_of_head (by simpa using hd)]
      simpa using hd

lemma dropTrailHyphen_subset {l : List Char} :
    ∀ c ∈ dropTrailHyphen l, c ∈ l := by
  intro c hc
  unfold dropTrailHyphen at hc
  split at hc
  · exact List.dropLast_subset _ hc
  · exact hc

lemma dropLast_front {α : Type} (l : List α) : l.dropLast <+: l :=
  List.dropLast_prefix l

lemma hasDoubleHyphen_append_left {l s : List Char}
    (h : hasDoubleHyphen l = true) : hasDoubleHyphen (l ++ s) = true := by
  induction l with
  | nil => simp [hasDoubleHyphen] at h
  | cons c rest ih =>
    cases rest with
    | nil => simp [hasDoubleHyphen] at h
    | cons d rest2 =>
      simp only [hasDoubleHyphen, Bool.or_eq_true] at h
      rcases h with h | h
      · simp [hasDoubleHyphen, h]
      · simp only [List.cons_append, hasDoubleHyphen, Bool.or_eq_true]
        exact Or.inr (by simpa using ih h)

lemma hasDoubleHyphen_of_front {l₁ l₂ : List Char} (h : l₁ <+: l₂)
    (h2 : hasDoubleHyphen l₂ = false) : hasDoubleHyphen l₁ = false := by
  obtain ⟨s, rfl⟩ := h
  by_contra hcon
  simp only [Bool.not_eq_false] at hcon
  rw [hasDoubleHyphen_append_left hcon] at h2
  exact absurd h2 (by simp)

lemma dropTrailHyphen_no_double {l : List Char}
    (h : hasDoubleHyphen l = false) :
    hasDoubleHyphen (dropTrailHyphen l) = false := by
  unfold dropTrailHyphen
  split
  · exact hasDoubleHyphen_of_front (dropLast_front l) h
  · exact h

lemma dropTrailHyphen_nil_cases {d : Char} {rest2 : List Char}
    (hX : dropTrailHyphen (d :: rest2) = []) : rest2 = [] ∧ d = '-' := by
  unfold dropTrailHyphen at hX
  split at hX
  · cases rest2 with
    | nil =>
      rename_i hl
      simp only [List.getLast?_singleton, Option.some_inj] at hl
      exact ⟨rfl, hl⟩
    | cons e rest3 => simpa using congrArg List.length hX
  · exact absurd hX (List.cons_ne_nil _ _)

lemma dropTrailHyphen_getLast {l : List Char}
    (h : hasDoubleHyphen l = false) :
    (dropTrailHyphen l).getLast? ≠ some '-' := by
  induction l with
  | nil => simp [dropTrailHyphen]
  | cons c rest ih =>
    cases rest with
    | nil =>
      by_cases hc : c = '-'
      · subst hc; simp [dropTrailHyphen]
      · have : dropTrailHyphen [c] = [c] := by
          unfold dropTrailHyphen
          rw [if_neg (by simpa using hc)]
        rw [this]
        simpa using hc
    | cons d rest2 =>
      have htail : hasDoubleHyphen (d :: rest2) = false := hasDoubleHyphen_tail h
      have hstep : dropTrailHyphen (c :: d :: rest2) = c :: dropTrailHyphen (d :: rest2) := by
        unfold dropTrailHyphen
        rw [List.getLast?_cons_cons]
        split
        · rfl
        · rfl
      rw [hstep]
      cases hX : dropTrailHyphen (d :: rest2) with
      | nil =>
        obtain ⟨hr, hd⟩ := dropTrailHyphen_nil_cases hX
        subst hr; subst hd
        simp only [hasDoubleHyphen, Bool.or_eq_false_iff,
          Bool.and_eq_false_iff] at h
        rcases h.1 with h1 | h1
        · simp only [List.getLast?_singleton, ne_eq, Option.some_inj]
          intro hcon
          subst hcon
          simp at h1
        · simp at h1
      | cons e tail =>
        rw [List.getLast?_cons_cons, ← hX]
        exact ih htail

lemma dropTrailHyphen_head {l : List Char} (h : l.head? ≠ some '-') :
    (dropTrailHyphen l).head? ≠ some '-' := by
  unfold dropTrailHyphen
  split
  · cases l with
    | nil => simp
    | cons c rest =>
      cases rest with
      | nil => simp
      | cons d rest2 =>
        simpa [List.dropLast_cons₂] using h
  · exact h

lemma takeUnits_front (n : Nat) (l : List Char) : takeUnits n l <+: l := by
  induction l generalizing n with
  | nil => simp [takeUnits]
  | cons c rest ih =>
    unfold takeUnits
    split
    · obtain ⟨t, ht⟩ := ih (n - utf16Units c)
      exact ⟨t, by rw [List.cons_append, ht]⟩
    · exact List.nil_prefix

lemma takeUnits_len (n : Nat) (l : List Char) : utf16Len (takeUnits n l) ≤ n := by
  induction l generalizing n with
  | nil => simp [takeUnits, utf16Len]
  | cons c rest ih =>
    unfold takeUnits
    split
    · rename_i hle
      have := ih (n - utf16Units c)
      simp only [utf16Len, List.map_cons, List.sum_cons]
      simp only [utf16Len] at this
      omega
    · simp [utf16Len]

lemma takeUnits_head {n : Nat} {l : List Char} :
    (takeUnits n l).head? = l.head? ∨ takeUnits n l = [] := by
  cases l with
  | nil => simp [takeUnits]
  | cons c rest =>
    unfold takeUnits
    split
    · left; rfl
    · right; rfl

lemma takeUnits_of_len_le {n : Nat} {l : List Char}
    (h : utf16Len l ≤ n) : takeUnits n l = l := by
  induction l generalizing n with
  | nil => simp [takeUnits]
  | cons c rest ih =>
    simp only [utf16Len, List.map_cons, List.sum_cons] at h
    have h1 : utf16Units c ≤ n := by omega
    unfold takeUnits
    rw [if_pos h1, ih]
    simp only [utf16Len]
    omega

lemma one_le_utf16Units (c : Char) : 1 ≤ utf16Units c := by
  unfold utf16Units
  split <;> simp

lemma utf16Len_replaceReserved_le (l : List Char) :
    utf16Len (replaceReserved l) ≤ utf16Len l := by
  induction l with
  | nil => simp [replaceReserved]
  | cons c rest ih =>
    simp only [replaceReserved, List.map_cons, utf16Len, List.sum_cons] at *
    have h1 : utf16Units (if reservedChar c then '-' else c) ≤ utf16Units c := by
      split
      · exact one_le_utf16Units c
      · exact le_refl _
    omega

lemma utf16Len_collapseWs_le (l : List Char) :
    utf16Len (collapseWs l) ≤ utf16Len l := by
  induction l using collapseWs.induct with
  | case1 => simp [collapseWs]
  | case2 c h =>
    simp only [collapseWs, h, if_true]
    simpa [utf16Len] using one_le_utf16Units c
  | case3 c h =>
    simp only [Bool.not_eq_true] at h
    simp [collapseWs, h]
  | case4 c d rest h1 h2 ih =>
    simp only [collapseWs, h1, h2, if_true]
    have := one_le_utf16Units c
    simp only [utf16Len, List.map_cons, List.sum_cons] at *
    omega
  | case5 c d rest h1 h2 ih =>
    simp only [Bool.not_eq_true] at h2
    simp only [collapseWs, h1, h2, if_true, Bool.false_eq_true, if_false]
    have := one_le_utf16Units c
    simp only [utf16Len, List.map_cons, List.sum_cons] at *
    have hu : utf16Units '-' = 1 := by decide
    omega
  | case6 c d rest h1 ih =>
    simp only [Bool.not_eq_true] at h1
    simp only [collapseWs, h1, Bool.false_eq_true, if_false]
    simp only [utf16Len, List.map_cons, List.sum_cons] at *
    omega

lemma utf16Len_collapseHyphens_le (l : List Char) :
    utf16Len (collapseHyphens l) ≤ utf16Len l := by
  induction l using collapseHyphens.induct with
  | case1 => simp [collapseHyphens]
  | case2 c => simp [collapseHyphens]
  | case3 c d rest h1 h2 ih =>
    simp only [collapseHyphens, h1, h2, if_true]
    have := one_le_utf16Units c
    simp only [utf16Len, List.map_cons, List.sum_cons] at *
    omega
  | case4 c d rest h1 h2 ih =>
    simp only [Bool.not_eq_true] at h2
    simp only [collapseHyphens, h1, h2, if_true, Bool.false_eq_true, if_false]
    simp only [beq_iff_eq] at h1
    subst h1
    simp only [utf16Len, List.map_cons, List.sum_cons] at *
    omega
  | case5 c d rest h1 ih =>
    simp only [Bool.not_eq_true] at h1
    simp only [collapseHyphens, h1, Bool.false_eq_true, if_false]
    simp only [utf16Len, List.map_cons, List.sum_cons] at *
    omega

lemma utf16Len_dropLeadHyphen_le (l : List Char) :
    utf16Len (dropLeadHyphen l) ≤ utf16Len l := by
  cases l with
  | nil => simp [dropLeadHyphen]
  | cons c rest =>
    by_cases h : c = '-'
    · subst h
      rw [dropLeadHyphen_cons_hyphen]
      simp only [utf16Len, List.map_cons, List.sum_cons]
      omega
    · rw [dropLeadHyphen_eq_of_head (by simpa using h)]

lemma utf16Len_dropTrailHyphen_le (l : List Char) :
    utf16Len (dropTrailHyphen l) ≤ utf16Len l := by
  unfold dropTrailHyphen
  split
  · have h : List.Sublist l.dropLast l := List.dropLast_sublist l
    simpa [utf16Len] using List.Sublist.sum_le_sum (h.map utf16Units)
      (by intro a _; exact Nat.zero_le a)
  · exact le_refl _

example : sanitizeFileName "Test: File/Name" = "Test-File-Name" := by decide
example : sanitizeFileName "File|With*Invalid?Chars" = "File-With-Invalid-Chars" := by decide
example : sanitizeFileName "Multiple   Spaces" = "Multiple-Spaces" := by decide
example : sanitizeFileName "---Multiple---Hyphens---" = "Multiple-Hyphens" := by decide
example : sanitizeFileName "" = "untitled" := by decide
example : sanitizeFileName "   " = "untitled" := by decide
example : sanitizeFileName ":::" = "untitled" := by decide

/-- C3 counterexample.  The claim asserts that sanitize output never has a
trailing hyphen, but the source truncates to 200 code units after the
hyphen-stripping step, so a title whose 200th code unit is a hyphen
sanitizes to a name that ends in a hyphen. -/
theorem C3_sanitize_counterexample :
    (sanitizeFileName hyphenAt200).data.getLast? = some '-' := by decide

/-- C3 (amended).  For every title T, sanitizeFileName T is total and
contains no reserved character, no JS whitespace, no run of two
consecutive hyphens, has no leading hyphen, and has length at most 200
UTF-16 code units; it has no trailing hyphen provided the title itself
fits in 200 code units (truncation of a longer title can cut directly
after a hyphen, as the counterexample shows); sanitize applied to the
empty title, to three spaces, and to three colons returns untitled. -/
theorem C3_sanitize_amended (T : String) :
    (∀ c ∈ (sanitizeFileName T).data, reservedChar c = false) ∧
    (∀ c ∈ (sanitizeFileName T).data, jsWhitespace c = false) ∧
    hasDoubleHyphen (sanitizeFileName T).data = false ∧
    (sanitizeFileName T).data.head? ≠ some '-' ∧
    utf16Len (sanitizeFileName T).data ≤ 200 ∧
    (utf16Len T.data ≤ 200 → (sanitizeFileName T).data.getLast? ≠ some '-') ∧
    sanitizeFileName "" = "untitled" ∧
    sanitizeFileName "   " = "untitled" ∧
    sanitizeFileName ":::" = "untitled" := by
  unfold sanitizeFileName
  set Y := dropTrailHyphen (dropLeadHyphen
    (collapseHyphens (collapseWs (replaceReserved T.data)))) with hY
  set R := takeUnits MAX_FILENAME_LENGTH Y with hR
  have hYsub : ∀ c ∈ Y, c ∈ collapseWs (replaceReserved T.data) := by
    intro c hc
    exact collapseHyphens_mem _ (dropLeadHyphen_subset _ (dropTrailHyphen_subset _ hc))
  have hRsub : ∀ c ∈ R, c ∈ collapseWs (replaceReserved T.data) := by
    intro c hc
    exact hYsub _ ((takeUnits_front MAX_FILENAME_LENGTH Y).subset hc)
  have hdouble : hasDoubleHyphen R = false := by
    apply hasDoubleHyphen_of_front (takeUnits_front _ _)
    exact dropTrailHyphen_no_double (dropLeadHyphen_no_double collapseHyphens_no_double)
  by_cases hE : R.isEmpty
  · rw [if_pos hE]
    refine ⟨by decide, by decide, by decide, by decide, by decide, ?_, by decide, by decide, by decide⟩
    intro _
    decide
  · rw [if_neg hE]
    simp only [String.data]
    refine ⟨?_, ?_, hdouble, ?_, ?_, ?_, by decide, by decide, by decide⟩
    · intro c hc
      rcases collapseWs_mem c (hRsub c hc) with rfl | ⟨hm, _⟩
      · decide
      · exact replaceReserved_no_reserved c hm
    · intro c hc
      exact collapseWs_no_ws c (hRsub c hc)
    · have hhead : Y.head? ≠ some '-' :=
        dropTrailHyphen_head (dropLeadHyphen_head collapseHyphens_no_double)
      rcases (takeUnits_head (n := MAX_FILENAME_LENGTH) (l := Y)) with h | h
      · rw [hR, h]; exact hhead
      · rw [hR, h]; simp
    · exact takeUnits_len _ _
    · intro hlen
      have hYlen : utf16Len Y ≤ 200 := by
        calc utf16Len Y ≤ utf16Len (dropLeadHyphen
            (collapseHyphens (collapseWs (replaceReserved T.data)))) :=
              utf16Len_dropTrailHyphen_le _
        _ ≤ utf16Len (collapseHyphens (collapseWs (replaceReserved T.data))) :=
              utf16Len_dropLeadHyphen_le _
        _ ≤ utf16Len (collapseWs (replaceReserved T.data)) :=
              utf16Len_collapseHyphens_le _
        _ ≤ utf16Len (replaceReserved T.data) := utf16Len_collapseWs_le _
        _ ≤ utf16Len T.data := utf16Len_replaceReserved_le _
        _ ≤ 200 := hlen
      have : R = Y := by
        rw [hR]
        exact takeUnits_of_len_le hYlen
      rw [this]
      exact dropTrailHyphen_getLast (dropLeadHyphen_no_double collapseHyphens_no_double)

/-- C3 witness: the amended theorem applied at a concrete short title. -/
theorem C3_sanitize_amended_witness :
    utf16Len ("My Notes" : String).data ≤ 200 ∧
    (sanitizeFileName "My Notes").data.getLast? ≠ some '-' :=
  ⟨by decide, (C3_sanitize_amended "My Notes").2.2.2.2.2.1 (by decide)⟩

section ExportLemmas

variable {env : Env} {fuel : Nat} {pid dir : String} {s : Finset String}

lemma exportPage_mem (h : pid ∈ s) :
    exportPage env fuel pid dir s = some (s, []) := by
  cases fuel with
  | zero => unfold exportPage; rw [if_pos h]
  | succ f => unfold exportPage; rw [if_pos h]

lemma exportPage_zero (h : pid ∉ s) :
    exportPage env 0 pid dir s = none := by
  unfold exportPage
  rw [if_neg h]

lemma exportPage_failure (h : pid ∉ s) (hr : env.retrieve pid = .failure) :
    exportPage env (fuel + 1) pid dir s =
      some (insert pid s, [Ev.apiRetrieve pid, Ev.logError pid]) := by
  unfold exportPage
  rw [if_neg h]
  simp [hr]

lemma exportPage_restricted (h : pid ∉ s) (hr : env.retrieve pid = .restricted) :
    exportPage env (fuel + 1) pid dir s =
      some (insert pid s, [Ev.apiRetrieve pid, Ev.logSkip pid]) := by
  unfold exportPage
  rw [if_neg h]
  simp [hr]

lemma exportPage_convert_none {props : List PageProperty} (h : pid ∉ s)
    (hr : env.retrieve pid = .page props) (hc : env.convert pid = none) :
    exportPage env (fuel + 1) pid dir s =
      some (insert pid s,
        [Ev.apiRetrieve pid, Ev.logExporting (getPageTitle props)] ++
        (getChildPages env pid).2 ++ [Ev.apiConvert pid, Ev.logError pid]) := by
  unfold exportPage
  rw [if_neg h]
  simp [hr, hc]

lemma exportPage_leaf {props : List PageProperty} {md : String} (h : pid ∉ s)
    (hr : env.retrieve pid = .page props) (hc : env.convert pid = some md)
    (hch : (getChildPages env pid).1 = []) :
    exportPage env (fuel + 1) pid dir s =
      some (insert pid s,
        [Ev.apiRetrieve pid, Ev.logExporting (getPageTitle props)] ++
        (getChildPages env pid).2 ++ [Ev.apiConvert pid] ++
        (processImages env md dir).2 ++
        [Ev.fsWrite
          (pathJoin dir (sanitizeFileName (getPageTitle props) ++ ".md"))
          (processImages env md dir).1]) := by
  unfold exportPage
  rw [if_neg h]
  simp [hr, hc, hch]

lemma exportPage_with_children {props : List PageProperty} {md : String}
    (h : pid ∉ s) (hr : env.retrieve pid = .page props)
    (hc : env.convert pid = some md) (hch : (getChildPages env pid).1 ≠ []) :
    exportPage env (fuel + 1) pid dir s =
      match exportChildren env fuel (getChildPages env pid).1
          (pathJoin dir (sanitizeFileName (getPageTitle props))) (insert pid s) with
      | none => none
      | some (s2, childEvs) =>
        some (s2,
          [Ev.apiRetrieve pid, Ev.logExporting (getPageTitle props)] ++
          (getChildPages env pid).2 ++ [Ev.apiConvert pid] ++
          (processImages env md dir).2 ++
          [Ev.fsWrite
            (pathJoin dir (sanitizeFileName (getPageTitle props) ++ ".md"))
            ((processImages env md dir).1 ++
              navSection (sanitizeFileName (getPageTitle props))
                (getChildPages env pid).1)] ++
          [Ev.fsMkdir (pathJoin dir (sanitizeFileName (getPageTitle props)))] ++
          childEvs) := by
  have hlen : 0 < (getChildPages env pid).1.length := List.length_pos.mpr hch
  unfold exportPage
  rw [if_neg h]
  simp only [hr, hc, hlen, if_pos]
  rfl

lemma exportChildren_nil {d : String} :
    exportChildren env fuel [] d s = some (s, []) := by
  unfold exportChildren
  rfl

lemma exportChildren_cons {c : String × List PageProperty}
    {cs : List (String × List PageProperty)} {d : String} :
    exportChildren env fuel (c :: cs) d s =
      match exportPage env fuel c.1 d s with
      | none => none
      | some (s1, evs1) =>
        match exportChildren env fuel cs d s1 with
        | none => none
        | some (s2, evs2) => some (s2, evs1 ++ evs2) := by
  rfl

lemma childFold_children {blocks : List Block}
    {acc : List (String × List PageProperty) × List Ev} :
    ∀ c ∈ (blocks.foldl (childStep env) acc).1,
      c ∈ acc.1 ∨ env.retrieve c.1 = .page c.2 := by
  induction blocks generalizing acc with
  | nil => intro c hc; exact Or.inl hc
  | cons b bs ih =>
    intro c hc
    rw [List.foldl_cons] at hc
    rcases ih c hc with hmem | hpage
    · unfold childStep at hmem
      split at hmem
      · split at hmem
        case h_1 hr => exact Or.inl hmem
        case h_2 hr => exact Or.inl hmem
        case h_3 props hr =>
          simp only [List.mem_append, List.mem_singleton] at hmem
          rcases hmem with hmem | rfl
          · exact Or.inl hmem
          · exact Or.inr hr
      · exact Or.inl hmem
    · exact Or.inr hpage

lemma getChildPages_children :
    ∀ c ∈ (getChildPages env pid).1, env.retrieve c.1 = .page c.2 := by
  intro c hc
  rcases childFold_children c hc with hmem | hpage
  · simp at hmem
  · exact hpage

lemma childFold_evs_mono {blocks : List Block}
    {acc : List (String × List PageProperty) × List Ev} :
    ∀ e ∈ acc.2, e ∈ (blocks.foldl (childStep env) acc).2 := by
  induction blocks generalizing acc with
  | nil => intro e he; exact he
  | cons b bs ih =>
    intro e he
    rw [List.foldl_cons]
    apply ih
    unfold childStep
    split
    · split
      case h_1 => exact List.mem_append_left _ he
      case h_2 => exact List.mem_append_left _ he
      case h_3 => exact List.mem_append_left _ he
    · exact he

lemma childFold_evs_shape {blocks : List Block}
    {acc : List (String × List PageProperty) × List Ev} :
    ∀ e ∈ (blocks.foldl (childStep env) acc).2,
      e ∈ acc.2 ∨ (∃ q, e = Ev.apiRetrieve q) ∨ (∃ q, e = Ev.logChildError q) := by
  induction blocks generalizing acc with
  | nil => intro e he; exact Or.inl he
  | cons b bs ih =>
    intro e he
    rw [List.foldl_cons] at he
    rcases ih e he with hmem | hshape
    · unfold childStep at hmem
      split at hmem
      · split at hmem <;>
          simp only [List.mem_append, List.mem_singleton, List.mem_cons,
            List.not_mem_nil, or_false] at hmem <;>
          rcases hmem with hmem | hmem
        · exact Or.inl hmem
        · rcases hmem with rfl | rfl
          · exact Or.inr (Or.inl ⟨_, rfl⟩)
          · exact Or.inr (Or.inr ⟨_, rfl⟩)
        · exact Or.inl hmem
        · subst hmem; exact Or.inr (Or.inl ⟨_, rfl⟩)
        · exact Or.inl hmem
        · subst hmem; exact Or.inr (Or.inl ⟨_, rfl⟩)
      · exact Or.inl hmem
    · exact Or.inr hshape

lemma getChildPages_evs_shape :
    ∀ e ∈ (getChildPages env pid).2,
      e = Ev.apiListChildren pid ∨ (∃ q, e = Ev.apiRetrieve q) ∨
        (∃ q, e = Ev.logChildError q) := by
  intro e he
  rcases childFold_evs_shape e he with hmem | hshape
  · simp only [List.mem_singleton] at hmem
    exact Or.inl hmem
  · exact Or.inr hshape

lemma childFold_childError {blocks : List Block}
    {acc : List (String × List PageProperty) × List Ev} {q : String} :
    Ev.logChildError q ∈ (blocks.foldl (childStep env) acc).2 →
      Ev.logChildError q ∈ acc.2 ∨ env.retrieve q = .failure := by
  induction blocks generalizing acc with
  | nil => intro h; exact Or.inl h
  | cons b bs ih =>
    intro h
    rw [List.foldl_cons] at h
    rcases ih h with hmem | hfail
    · unfold childStep at hmem
      split at hmem
      · split at hmem
        case h_1 hr =>
          simp only [List.mem_append, List.mem_cons, List.mem_singleton,
            List.not_mem_nil, or_false] at hmem
          rcases hmem with hmem | hmem | hmem
          · exact Or.inl hmem
          · exact absurd hmem (by simp)
          · rw [Ev.logChildError.injEq] at hmem
            subst hmem
            exact Or.inr hr
        case h_2 hr =>
          simp only [List.mem_append, List.mem_singleton] at hmem
          rcases hmem with hmem | hmem
          · exact Or.inl hmem
          · exact absurd hmem (by simp)
        case h_3 props hr =>
          simp only [List.mem_append, List.mem_singleton] at hmem
          rcases hmem with hmem | hmem
          · exact Or.inl hmem
          · exact absurd hmem (by simp)
      · exact Or.inl hmem
    · exact Or.inr hfail

lemma childFold_retrieve_mem {blocks : List Block} {block : Block}
    (hb : block ∈ blocks) (ht : block.hasTypeField = true)
    (hty : block.type = "child_page") :
    ∀ acc, Ev.apiRetrieve block.id ∈ (blocks.foldl (childStep env) acc).2 := by
  induction blocks with
  | nil => simp at hb
  | cons b bs ih =>
    intro acc
    rw [List.foldl_cons]
    rcases List.mem_cons.mp hb with rfl | hb2
    · apply childFold_evs_mono
      unfold childStep
      rw [if_pos (by simp [ht, hty])]
      split
      case h_1 => exact List.mem_append_right _ (by simp)
      case h_2 => exact List.mem_append_right _ (by simp)
      case h_3 => exact List.mem_append_right _ (by simp)
    · exact ih hb2 _

lemma strFoldl_append (xs : List String) :
    ∀ init, xs.foldl (· ++ ·) init = init ++ xs.foldl (· ++ ·) "" := by
  induction xs with
  | nil => intro init; simp
  | cons x xs ih =>
    intro init
    rw [List.foldl_cons, List.foldl_cons, ih (init ++ x), ih ("" ++ x)]
    simp [String.append_assoc]

lemma stringJoin_cons (x : String) (xs : List String) :
    String.join (x :: xs) = x ++ String.join xs := by
  unfold String.join
  rw [List.foldl_cons, strFoldl_append]
  simp

lemma foldl_append_join {α : Type} (f : α → String) :
    ∀ (l : List α) (init : String),
      l.foldl (fun acc c => acc ++ f c) init = init ++ String.join (l.map f) := by
  intro l
  induction l with
  | nil => intro init; simp [String.join]
  | cons a as ih =>
    intro init
    rw [List.foldl_cons, ih, List.map_cons, stringJoin_cons, ← String.append_assoc]

lemma navSection_eq (fileName : String)
    (children : List (String × List PageProperty)) :
    navSection fileName children =
      "\n\n## Subnotes\n\n" ++ String.join (children.map (childLink fileName)) := by
  unfold navSection
  exact foldl_append_join _ children _

lemma exportChildren_mono_of {env : Env} {f : Nat}
    (hp : ∀ pid dir s s' tr, exportPage env f pid dir s = some (s', tr) → s ⊆ s') :
    ∀ cs dir s s' tr, exportChildren env f cs dir s = some (s', tr) → s ⊆ s' := by
  intro cs
  induction cs with
  | nil =>
    intro dir s s' tr h
    rw [exportChildren_nil] at h
    simp only [Option.some_inj, Prod.mk.injEq] at h
    rw [← h.1]
  | cons c cs ih =>
    intro dir s s' tr h
    rw [exportChildren_cons] at h
    cases h1 : exportPage env f c.1 dir s with
    | none => rw [h1] at h; simp at h
    | some p1 =>
      obtain ⟨s1, evs1⟩ := p1
      rw [h1] at h
      dsimp only at h
      cases h2 : exportChildren env f cs dir s1 with
      | none => rw [h2] at h; simp at h
      | some p2 =>
        obtain ⟨s2, evs2⟩ := p2
        rw [h2] at h
        dsimp only at h
        simp only [Option.some_inj, Prod.mk.injEq] at h
        obtain ⟨h3, -⟩ := h
        rw [← h3]
        exact (hp _ _ _ _ _ h1).trans (ih _ _ _ _ h2)

lemma export_mono : ∀ (fuel : Nat) (env : Env) (pid dir : String)
    (s s' : Finset String) (tr : List Ev),
    exportPage env fuel pid dir s = some (s', tr) → s ⊆ s' := by
  intro fuel
  induction fuel with
  | zero =>
    intro env pid dir s s' tr h
    by_cases hm : pid ∈ s
    · rw [exportPage_mem hm] at h
      simp only [Option.some_inj, Prod.mk.injEq] at h
      rw [← h.1]
    · rw [exportPage_zero hm] at h
      cases h
  | succ f ih =>
    intro env pid dir s s' tr h
    by_cases hm : pid ∈ s
    · rw [exportPage_mem hm] at h
      simp only [Option.some_inj, Prod.mk.injEq] at h
      rw [← h.1]
    · cases hr : env.retrieve pid with
      | failure =>
        rw [exportPage_failure hm hr] at h
        simp only [Option.some_inj, Prod.mk.injEq] at h
        rw [← h.1]
        exact Finset.subset_insert _ _
      | restricted =>
        rw [exportPage_restricted hm hr] at h
        simp only [Option.some_inj, Prod.mk.injEq] at h
        rw [← h.1]
        exact Finset.subset_insert _ _
      | page props =>
        cases hc : env.convert pid with
        | none =>
          rw [exportPage_convert_none hm hr hc] at h
          simp only [Option.some_inj, Prod.mk.injEq] at h
          rw [← h.1]
          exact Finset.subset_insert _ _
        | some md =>
          by_cases hch : (getChildPages env pid).1 = []
          · rw [exportPage_leaf hm hr hc hch] at h
            simp only [Option.some_inj, Prod.mk.injEq] at h
            rw [← h.1]
            exact Finset.subset_insert _ _
          · rw [exportPage_with_children hm hr hc hch] at h
            cases h2 : exportChildren env f (getChildPages env pid).1
                (pathJoin dir (sanitizeFileName (getPageTitle props)))
                (insert pid s) with
            | none => rw [h2] at h; simp at h
            | some p2 =>
              obtain ⟨s2, evs2⟩ := p2
              rw [h2] at h
              dsimp only at h
              simp only [Option.some_inj, Prod.mk.injEq] at h
              obtain ⟨h3, -⟩ := h
              rw [← h3]
              exact (Finset.subset_insert _ _).trans
                (exportChildren_mono_of (ih env) _ _ _ _ _ h2)

lemma exportChildren_mono {env : Env} {fuel : Nat}
    {cs : List (String × List PageProperty)} {d : String}
    {s s' : Finset String} {tr : List Ev}
    (h : exportChildren env fuel cs d s = some (s', tr)) : s ⊆ s' :=
  exportChildren_mono_of (export_mono fuel env) _ _ _ _ _ h

lemma exportPage_insert {env : Env} {fuel : Nat} {pid dir : String}
    {s s' : Finset String} {tr : List Ev} (hm : pid ∉ s)
    (h : exportPage env fuel pid dir s = some (s', tr)) : insert pid s ⊆ s' := by
  cases fuel with
  | zero => rw [exportPage_zero hm] at h; cases h
  | succ f =>
    cases hr : env.retrieve pid with
    | failure =>
      rw [exportPage_failure hm hr] at h
      simp only [Option.some_inj, Prod.mk.injEq] at h
      rw [← h.1]
    | restricted =>
      rw [exportPage_restricted hm hr] at h
      simp only [Option.some_inj, Prod.mk.injEq] at h
      rw [← h.1]
    | page props =>
      cases hc : env.convert pid with
      | none =>
        rw [exportPage_convert_none hm hr hc] at h
        simp only [Option.some_inj, Prod.mk.injEq] at h
        rw [← h.1]
      | some md =>
        by_cases hch : (getChildPages env pid).1 = []
        · rw [exportPage_leaf hm hr hc hch] at h
          simp only [Option.some_inj, Prod.mk.injEq] at h
          rw [← h.1]
        · rw [exportPage_with_children hm hr hc hch] at h
          cases h2 : exportChildren env f (getChildPages env pid).1
              (pathJoin dir (sanitizeFileName (getPageTitle props)))
              (insert pid s) with
          | none => rw [h2] at h; simp at h
          | some p2 =>
            obtain ⟨s2, evs2⟩ := p2
            rw [h2] at h
            dsimp only at h
            simp only [Option.some_inj, Prod.mk.injEq] at h
            obtain ⟨h3, -⟩ := h
            rw [← h3]
            exact exportChildren_mono h2

lemma processImagesStep_evs {idir : String} {acc : ImgAcc} {m : ImageMatch} :
    ∃ extra, (processImagesStep env idir acc m).evs = acc.evs ++ extra ∧
      ∀ e ∈ extra, imgEv e = true := by
  by_cases h1 : (!(("http://".data).isPrefixOf m.url) &&
      !(("https://".data).isPrefixOf m.url)) = true
  · refine ⟨[], ?_, by simp⟩
    simp [processImagesStep, h1]
  · cases hp : parseHttpUrl m.url with
    | none =>
      refine ⟨[Ev.logImageError (String.mk m.url)], ?_, by simp [imgEv]⟩
      simp [processImagesStep, h1, hp]
    | some parts =>
      by_cases h2 : (!containsSub ("notion.so".data) parts.hostname) = true
      · refine ⟨[Ev.logSkipImage (String.mk m.url)], ?_, by simp [imgEv]⟩
        simp [processImagesStep, h1, hp, h2]
      · cases hd : env.download (String.mk m.url) with
        | none =>
          refine ⟨[Ev.logImageError (String.mk m.url)], ?_, by simp [imgEv]⟩
          simp [processImagesStep, h1, hp, h2, hd]
        | some bytes =>
          refine ⟨[Ev.fsWrite
              (pathJoin idir ("image-" ++ natToString acc.counter ++ "." ++
                String.mk ((extFrom parts.pathname).getD ("png".data)))) bytes,
            Ev.logDownloaded ("image-" ++ natToString acc.counter ++ "." ++
              String.mk ((extFrom parts.pathname).getD ("png".data)))], ?_, ?_⟩
          · simp [processImagesStep, h1, hp, h2, hd]
          · intro e he
            simp only [List.mem_cons, List.not_mem_nil, or_false] at he
            rcases he with rfl | rfl <;> simp [imgEv]

lemma imgFold_evs {idir : String} :
    ∀ (ms : List ImageMatch) (acc : ImgAcc),
      ∃ extra, (ms.foldl (processImagesStep env idir) acc).evs = acc.evs ++ extra ∧
        ∀ e ∈ extra, imgEv e = true := by
  intro ms
  induction ms with
  | nil => intro acc; exact ⟨[], by simp⟩
  | cons m ms ih =>
    intro acc
    rw [List.foldl_cons]
    obtain ⟨ex1, he1, hp1⟩ := @processImagesStep_evs env idir acc m
    obtain ⟨ex2, he2, hp2⟩ := ih (processImagesStep env idir acc m)
    refine ⟨ex1 ++ ex2, ?_, ?_⟩
    · rw [he2, he1, List.append_assoc]
    · intro e he
      rcases List.mem_append.mp he with h | h
      · exact hp1 e h
      · exact hp2 e h

lemma processImages_evs {md d : String} :
    (processImages env md d).2 = [] ∨
      ∃ extra, (processImages env md d).2 =
        Ev.fsMkdir (pathJoin d "images") :: extra ∧ ∀ e ∈ extra, imgEv e = true := by
  by_cases hE : (scanImages md.data).isEmpty = true
  · left
    simp [processImages, hE]
  · right
    obtain ⟨extra, he, hp⟩ := @imgFold_evs env (pathJoin d "images")
      (scanImages md.data) ⟨md.data, 1, [Ev.fsMkdir (pathJoin d "images")]⟩
    refine ⟨extra, ?_, hp⟩
    simp only [processImages, hE, Bool.false_eq_true, if_false]
    simpa using he

lemma processImages_shape {md d : String} :
    ∀ e ∈ (processImages env md d).2,
      e = Ev.fsMkdir (pathJoin d "images") ∨ imgEv e = true := by
  intro e he
  rcases @processImages_evs env md d with h | ⟨extra, h, hp⟩
  · rw [h] at he; simp at he
  · rw [h] at he
    rcases List.mem_cons.mp he with rfl | hm
    · exact Or.inl rfl
    · exact Or.inr (hp e hm)

lemma getChildPages_convertCount {q : String} :
    convertCount (getChildPages env pid).2 q = 0 := by
  unfold convertCount
  rw [List.countP_eq_zero]
  intro e he
  rcases getChildPages_evs_shape e he with rfl | ⟨r, rfl⟩ | ⟨r, rfl⟩ <;> simp

lemma processImages_convertCount {md d q : String} :
    convertCount (processImages env md d).2 q = 0 := by
  unfold convertCount
  rw [List.countP_eq_zero]
  intro e he
  rcases processImages_shape e he with rfl | himg
  · simp
  · cases e <;> simp_all [imgEv]

lemma convertCount_append (t1 t2 : List Ev) (q : String) :
    convertCount (t1 ++ t2) q = convertCount t1 q + convertCount t2 q := by
  unfold convertCount
  exact List.countP_append _ _ _

lemma exportChildren_convertOnce_of {env : Env} {f : Nat}
    (hp : ∀ pid dir s s' tr, exportPage env f pid dir s = some (s', tr) →
      ∀ q, convertCount tr q ≤ 1 ∧ (1 ≤ convertCount tr q → q ∉ s ∧ q ∈ s')) :
    ∀ cs dir s s' tr, exportChildren env f cs dir s = some (s', tr) →
      ∀ q, convertCount tr q ≤ 1 ∧ (1 ≤ convertCount tr q → q ∉ s ∧ q ∈ s') := by
  intro cs
  induction cs with
  | nil =>
    intro dir s s' tr h q
    rw [exportChildren_nil] at h
    simp only [Option.some_inj, Prod.mk.injEq] at h
    obtain ⟨rfl, rfl⟩ := h
    simp [convertCount]
  | cons c cs ih =>
    intro dir s s' tr h q
    rw [exportChildren_cons] at h
    cases h1 : exportPage env f c.1 dir s with
    | none => rw [h1] at h; simp at h
    | some p1 =>
      obtain ⟨s1, evs1⟩ := p1
      rw [h1] at h
      dsimp only at h
      cases h2 : exportChildren env f cs dir s1 with
      | none => rw [h2] at h; simp at h
      | some p2 =>
        obtain ⟨s2, evs2⟩ := p2
        rw [h2] at h
        dsimp only at h
        simp only [Option.some_inj, Prod.mk.injEq] at h
        obtain ⟨h3, h4⟩ := h
        subst h3
        subst h4
        have hP := hp _ _ _ _ _ h1 q
        have hC := ih _ _ _ _ h2 q
        rw [convertCount_append]
        by_cases ha : 1 ≤ convertCount evs1 q
        · have hfresh1 := hP.2 ha
          have hzero : convertCount evs2 q = 0 := by
            by_contra hc2
            have : 1 ≤ convertCount evs2 q := by omega
            exact absurd hfresh1.2 (hC.2 this).1
          constructor
          · omega
          · intro _
            exact ⟨hfresh1.1, exportChildren_mono h2 hfresh1.2⟩
        · have hzero : convertCount evs1 q = 0 := by omega
          rw [hzero, Nat.zero_add]
          refine ⟨hC.1, ?_⟩
          intro hone
          obtain ⟨hns1, hins2⟩ := hC.2 hone
          refine ⟨fun hin => hns1 (export_mono _ _ _ _ _ _ _ h1 hin), hins2⟩

lemma export_convertOnce : ∀ (fuel : Nat) (env : Env) (pid dir : String)
    (s s' : Finset String) (tr : List Ev),
    exportPage env fuel pid dir s = some (s', tr) →
    ∀ q, convertCount tr q ≤ 1 ∧ (1 ≤ convertCount tr q → q ∉ s ∧ q ∈ s') := by
  intro fuel
  induction fuel with
  | zero =>
    intro env pid dir s s' tr h q
    by_cases hm : pid ∈ s
    · rw [exportPage_mem hm] at h
      simp only [Option.some_inj, Prod.mk.injEq] at h
      obtain ⟨rfl, rfl⟩ := h
      simp [convertCount]
    · rw [exportPage_zero hm] at h
      cases h
  | succ f ih =>
    intro env pid dir s s' tr h q
    by_cases hm : pid ∈ s
    · rw [exportPage_mem hm] at h
      simp only [Option.some_inj, Prod.mk.injEq] at h
      obtain ⟨rfl, rfl⟩ := h
      simp [convertCount]
    · cases hr : env.retrieve pid with
      | failure =>
        rw [exportPage_failure hm hr] at h
        simp only [Option.some_inj, Prod.mk.injEq] at h
        obtain ⟨rfl, rfl⟩ := h
        simp [convertCount, List.countP_cons]
      | restricted =>
        rw [exportPage_restricted hm hr] at h
        simp only [Option.some_inj, Prod.mk.injEq] at h
        obtain ⟨rfl, rfl⟩ := h
        simp [convertCount, List.countP_cons]
      | page props =>
        cases hc : env.convert pid with
        | none =>
          rw [exportPage_convert_none hm hr hc] at h
          simp only [Option.some_inj, Prod.mk.injEq] at h
          obtain ⟨rfl, rfl⟩ := h
          rw [convertCount_append, convertCount_append, getChildPages_convertCount]
          by_cases hq : q = pid
          · subst hq
            constructor
            · simp [convertCount, List.countP_cons]
            · intro _
              exact ⟨hm, Finset.mem_insert_self _ _⟩
          · constructor
            · simp [convertCount, List.countP_cons, Ne.symm hq, hq]
            · intro hcnt
              exfalso
              simp [convertCount, List.countP_cons, hq, Ne.symm hq] at hcnt
        | some md =>
          by_cases hch : (getChildPages env pid).1 = []
          · rw [exportPage_leaf hm hr hc hch] at h
            simp only [Option.some_inj, Prod.mk.injEq] at h
            obtain ⟨rfl, rfl⟩ := h
            rw [convertCount_append, convertCount_append, convertCount_append,
              convertCount_append, getChildPages_convertCount,
              processImages_convertCount]
            by_cases hq : q = pid
            · subst hq
              constructor
              · simp [convertCount, List.countP_cons]
              · intro _
                exact ⟨hm, Finset.mem_insert_self _ _⟩
            · constructor
              · simp [convertCount, List.countP_cons, hq, Ne.symm hq]
              · intro hcnt
                exfalso
                simp [convertCount, List.countP_cons, hq, Ne.symm hq] at hcnt
          · rw [exportPage_with_children hm hr hc hch] at h
            cases h2 : exportChildren env f (getChildPages env pid).1
                (pathJoin dir (sanitizeFileName (getPageTitle props)))
                (insert pid s) with
            | none => rw [h2] at h; simp at h
            | some p2 =>
              obtain ⟨s2, evs2⟩ := p2
              rw [h2] at h
              dsimp only at h
              simp only [Option.some_inj, Prod.mk.injEq] at h
              obtain ⟨h3, h4⟩ := h
              subst h3
              subst h4
              have hC := exportChildren_convertOnce_of (ih env) _ _ _ _ _ h2 q
              have ha : convertCount
                  [Ev.apiRetrieve pid, Ev.logExporting (getPageTitle props)] q = 0 := by
                simp [convertCount]
              have hwz : convertCount
                  [Ev.fsWrite (pathJoin dir (sanitizeFileName (getPageTitle props) ++ ".md"))
                    ((processImages env md dir).1 ++
                      navSection (sanitizeFileName (getPageTitle props))
                        (getChildPages env pid).1)] q = 0 := by
                simp [convertCount]
              have hmz : convertCount
                  [Ev.fsMkdir (pathJoin dir (sanitizeFileName (getPageTitle props)))] q = 0 := by
                simp [convertCount]
              by_cases hq : q = pid
              · subst hq
                have hb : convertCount [Ev.apiConvert q] q = 1 := by
                  simp [convertCount]
                have hz2 : convertCount evs2 q = 0 := by
                  by_contra hc2
                  exact absurd (Finset.mem_insert_self q s)
                    (hC.2 (Nat.one_le_iff_ne_zero.mpr hc2)).1
                constructor
                · simp only [convertCount_append, getChildPages_convertCount,
                    processImages_convertCount, ha, hb, hwz, hmz, hz2]
                  omega
                · intro _
                  exact ⟨hm, exportChildren_mono h2 (Finset.mem_insert_self q s)⟩
              · have hb : convertCount [Ev.apiConvert pid] q = 0 := by
                  simp [convertCount, Ne.symm hq]
                constructor
                · simp only [convertCount_append, getChildPages_convertCount,
                    processImages_convertCount, ha, hb, hwz, hmz]
                  omega
                · intro hcnt
                  have h1le : 1 ≤ convertCount evs2 q := by
                    simp only [convertCount_append, getChildPages_convertCount,
                      processImages_convertCount, ha, hb, hwz, hmz] at hcnt
                    omega
                  obtain ⟨hq1, hq2⟩ := hC.2 h1le
                  exact ⟨fun hin => hq1 (Finset.mem_insert_of_mem hin), hq2⟩

lemma exportChildren_fuel_of {env : Env} {f : Nat} {D : Finset String}
    (hp : ∀ pid dir s, (D \ s).card < f → (exportPage env f pid dir s).isSome) :
    ∀ cs dir s, (D \ s).card < f → (exportChildren env f cs dir s).isSome := by
  intro cs
  induction cs with
  | nil =>
    intro dir s _
    rw [exportChildren_nil]
    rfl
  | cons c cs ih =>
    intro dir s hcard
    rw [exportChildren_cons]
    cases h1 : exportPage env f c.1 dir s with
    | none =>
      have := hp c.1 dir s hcard
      rw [h1] at this
      cases this
    | some p1 =>
      obtain ⟨s1, evs1⟩ := p1
      have hmono : s ⊆ s1 := export_mono _ _ _ _ _ _ _ h1
      have hcard1 : (D \ s1).card < f := by
        have hsub : D \ s1 ⊆ D \ s :=
          Finset.sdiff_subset_sdiff (le_refl D) hmono
        have := Finset.card_le_card hsub
        omega
      dsimp only
      cases h2 : exportChildren env f cs dir s1 with
      | none =>
        have := ih dir s1 hcard1
        rw [h2] at this
        cases this
      | some p2 =>
        obtain ⟨s2, evs2⟩ := p2
        rfl

lemma export_fuel : ∀ (fuel : Nat) (env : Env) (D : Finset String),
    (∀ id props, env.retrieve id = .page props → id ∈ D) →
    ∀ pid dir s, (D \ s).card < fuel → (exportPage env fuel pid dir s).isSome := by
  intro fuel
  induction fuel with
  | zero =>
    intro env D hD pid dir s hcard
    omega
  | succ f ih =>
    intro env D hD pid dir s hcard
    by_cases hm : pid ∈ s
    · rw [exportPage_mem hm]; rfl
    · cases hr : env.retrieve pid with
      | failure => rw [exportPage_failure hm hr]; rfl
      | restricted => rw [exportPage_restricted hm hr]; rfl
      | page props =>
        cases hc : env.convert pid with
        | none => rw [exportPage_convert_none hm hr hc]; rfl
        | some md =>
          by_cases hch : (getChildPages env pid).1 = []
          · rw [exportPage_leaf hm hr hc hch]; rfl
          · rw [exportPage_with_children hm hr hc hch]
            have hpidmem : pid ∈ D \ s := Finset.mem_sdiff.mpr ⟨hD _ _ hr, hm⟩
            have hsub : D \ insert pid s ⊆ D \ s :=
              Finset.sdiff_subset_sdiff (le_refl D) (Finset.subset_insert _ _)
            have hpidnot : pid ∉ D \ insert pid s := by
              simp [Finset.mem_sdiff]
            have hlt : (D \ insert pid s).card < (D \ s).card :=
              Finset.card_lt_card ⟨hsub, fun hcon => hpidnot (hcon hpidmem)⟩
            have hcard1 : (D \ insert pid s).card < f := by omega
            have hsome := exportChildren_fuel_of (ih env D hD)
              (getChildPages env pid).1
              (pathJoin dir (sanitizeFileName (getPageTitle props)))
              (insert pid s) hcard1
            cases h2 : exportChildren env f (getChildPages env pid).1
                (pathJoin dir (sanitizeFileName (getPageTitle props)))
                (insert pid s) with
            | none => rw [h2] at hsome; cases hsome
            | some p2 =>
              obtain ⟨s2, evs2⟩ := p2
              rfl

lemma exportChildren_noInsert_of {env : Env} {f : Nat} {cid : String}
    (hrest : env.retrieve cid = .restricted)
    (hp : ∀ pid dir s s' tr, exportPage env f pid dir s = some (s', tr) →
      cid ≠ pid → cid ∉ s → cid ∉ s') :
    ∀ cs dir s s' tr, exportChildren env f cs dir s = some (s', tr) →
      (∀ c ∈ cs, env.retrieve c.1 = .page c.2) → cid ∉ s → cid ∉ s' := by
  intro cs
  induction cs with
  | nil =>
    intro dir s s' tr h _ hns
    rw [exportChildren_nil] at h
    simp only [Option.some_inj, Prod.mk.injEq] at h
    obtain ⟨rfl, rfl⟩ := h
    exact hns
  | cons c cs ih =>
    intro dir s s' tr h hcs hns
    rw [exportChildren_cons] at h
    cases h1 : exportPage env f c.1 dir s with
    | none => rw [h1] at h; simp at h
    | some p1 =>
      obtain ⟨s1, evs1⟩ := p1
      rw [h1] at h
      dsimp only at h
      cases h2 : exportChildren env f cs dir s1 with
      | none => rw [h2] at h; simp at h
      | some p2 =>
        obtain ⟨s2, evs2⟩ := p2
        rw [h2] at h
        dsimp only at h
        simp only [Option.some_inj, Prod.mk.injEq] at h
        obtain ⟨h3, -⟩ := h
        subst h3
        have hne : cid ≠ c.1 := by
          intro hcon
          have hcp := hcs c (List.mem_cons_self _ _)
          rw [← hcon, hrest] at hcp
          cases hcp
        have hns1 : cid ∉ s1 := hp _ _ _ _ _ h1 hne hns
        exact ih _ _ _ _ h2 (fun x hx => hcs x (List.mem_cons_of_mem _ hx)) hns1

lemma export_noInsert {cid : String} : ∀ (fuel : Nat) (env : Env),
    env.retrieve cid = .restricted →
    ∀ pid dir s s' tr, exportPage env fuel pid dir s = some (s', tr) →
      cid ≠ pid → cid ∉ s → cid ∉ s' := by
  intro fuel
  induction fuel with
  | zero =>
    intro env hrest pid dir s s' tr h hne hns
    by_cases hm : pid ∈ s
    · rw [exportPage_mem hm] at h
      simp only [Option.some_inj, Prod.mk.injEq] at h
      obtain ⟨rfl, rfl⟩ := h
      exact hns
    · rw [exportPage_zero hm] at h
      cases h
  | succ f ih =>
    intro env hrest pid dir s s' tr h hne hns
    have hni : cid ∉ insert pid s := by
      simp only [Finset.mem_insert]
      rintro (rfl | hin)
      · exact hne rfl
      · exact hns hin
    by_cases hm : pid ∈ s
    · rw [exportPage_mem hm] at h
      simp only [Option.some_inj, Prod.mk.injEq] at h
      obtain ⟨rfl, rfl⟩ := h
      exact hns
    · cases hr : env.retrieve pid with
      | failure =>
        rw [exportPage_failure hm hr] at h
        simp only [Option.some_inj, Prod.mk.injEq] at h
        obtain ⟨rfl, rfl⟩ := h
        exact hni
      | restricted =>
        rw [exportPage_restricted hm hr] at h
        simp only [Option.some_inj, Prod.mk.injEq] at h
        obtain ⟨rfl, rfl⟩ := h
        exact hni
      | page props =>
        cases hc : env.convert pid with
        | none =>
          rw [exportPage_convert_none hm hr hc] at h
          simp only [Option.some_inj, Prod.mk.injEq] at h
          obtain ⟨rfl, rfl⟩ := h
          exact hni
        | some md =>
          by_cases hch : (getChildPages env pid).1 = []
          · rw [exportPage_leaf hm hr hc hch] at h
            simp only [Option.some_inj, Prod.mk.injEq] at h
            obtain ⟨rfl, rfl⟩ := h
            exact hni
          · rw [exportPage_with_children hm hr hc hch] at h
            cases h2 : exportChildren env f (getChildPages env pid).1
                (pathJoin dir (sanitizeFileName (getPageTitle props)))
                (insert pid s) with
            | none => rw [h2] at h; simp at h
            | some p2 =>
              obtain ⟨s2, evs2⟩ := p2
              rw [h2] at h
              dsimp only at h
              simp only [Option.some_inj, Prod.mk.injEq] at h
              obtain ⟨h3, -⟩ := h
              subst h3
              exact exportChildren_noInsert_of hrest (ih env hrest) _ _ _ _ _ h2
                (fun c hc2 => getChildPages_children c hc2) hni

lemma exportPage_own_write {env : Env} {fuel : Nat} {pid dir : String}
    {s s' : Finset String} {tr : List Ev} {props : List PageProperty} {md : String}
    (h : exportPage env fuel pid dir s = some (s', tr)) (hm : pid ∉ s)
    (hr : env.retrieve pid = .page props) (hc : env.convert pid = some md) :
    ∃ content,
      Ev.fsWrite (pathJoin dir (sanitizeFileName (getPageTitle props) ++ ".md"))
        content ∈ tr := by
  cases fuel with
  | zero => rw [exportPage_zero hm] at h; cases h
  | succ f =>
    by_cases hch : (getChildPages env pid).1 = []
    · rw [exportPage_leaf hm hr hc hch] at h
      simp only [Option.some_inj, Prod.mk.injEq] at h
      obtain ⟨-, rfl⟩ := h
      exact ⟨(processImages env md dir).1, by simp⟩
    · rw [exportPage_with_children hm hr hc hch] at h
      cases h2 : exportChildren env f (getChildPages env pid).1
          (pathJoin dir (sanitizeFileName (getPageTitle props)))
          (insert pid s) with
      | none => rw [h2] at h; simp at h
      | some p2 =>
        obtain ⟨s2, evs2⟩ := p2
        rw [h2] at h
        dsimp only at h
        simp only [Option.some_inj, Prod.mk.injEq] at h
        obtain ⟨-, rfl⟩ := h
        exact ⟨(processImages env md dir).1 ++
          navSection (sanitizeFileName (getPageTitle props)) (getChildPages env pid).1,
          by simp⟩

lemma applyTrace_cons (fs : FileSystem) (e : Ev) (t : List Ev) :
    applyTrace fs (e :: t) = applyTrace (applyEv fs e) t := rfl

lemma applyTrace_files : ∀ (t : List Ev) (fs : FileSystem) (p : String),
    (applyTrace fs t).files p =
      match lastWrite t p with
      | some c => some c
      | none => fs.files p := by
  intro t
  induction t with
  | nil => intro fs p; rfl
  | cons e rest ih =>
    intro fs p
    rw [applyTrace_cons, ih]
    cases hl : lastWrite rest p with
    | some c => simp [lastWrite, hl]
    | none =>
      simp only [lastWrite, hl]
      cases e with
      | fsWrite q c =>
        by_cases hpq : p = q
        · simp [applyEv, hpq]
        · simp [applyEv, hpq]
      | fsMkdir q => simp [applyEv]
      | apiSearch => simp [applyEv]
      | apiRetrieve i => simp [applyEv]
      | apiListChildren i => simp [applyEv]
      | apiConvert i => simp [applyEv]
      | logStart => simp [applyEv]
      | logSkip i => simp [applyEv]
      | logExporting i => simp [applyEv]
      | logError i => simp [applyEv]
      | logChildError i => simp [applyEv]
      | logSkipImage i => simp [applyEv]
      | logDownloaded i => simp [applyEv]
      | logImageError i => simp [applyEv]
      | logComplete i n => simp [applyEv]

lemma applyTrace_dirs : ∀ (t : List Ev) (fs : FileSystem) (p : String),
    (applyTrace fs t).dirs p = (mkdirIn t p || fs.dirs p) := by
  intro t
  induction t with
  | nil => intro fs p; rfl
  | cons e rest ih =>
    intro fs p
    rw [applyTrace_cons, ih]
    cases e with
    | fsMkdir q =>
      by_cases hpq : p = q
      · simp [applyEv, mkdirIn, hpq]
      · simp [applyEv, mkdirIn, hpq]
    | fsWrite q c => simp [applyEv, mkdirIn]
    | apiSearch => simp [applyEv, mkdirIn]
    | apiRetrieve i => simp [applyEv, mkdirIn]
    | apiListChildren i => simp [applyEv, mkdirIn]
    | apiConvert i => simp [applyEv, mkdirIn]
    | logStart => simp [applyEv, mkdirIn]
    | logSkip i => simp [applyEv, mkdirIn]
    | logExporting i => simp [applyEv, mkdirIn]
    | logError i => simp [applyEv, mkdirIn]
    | logChildError i => simp [applyEv, mkdirIn]
    | logSkipImage i => simp [applyEv, mkdirIn]
    | logDownloaded i => simp [applyEv, mkdirIn]
    | logImageError i => simp [applyEv, mkdirIn]
    | logComplete i n => simp [applyEv, mkdirIn]

lemma applyTrace_idem (t : List Ev) (fs : FileSystem) :
    applyTrace (applyTrace fs t) t = applyTrace fs t := by
  ext p
  · rw [applyTrace_files, applyTrace_files]
    cases hl : lastWrite t p with
    | some c => simp
    | none => simp [applyTrace_files, hl]
  · simp only [applyTrace_dirs]
    cases mkdirIn t p <;> simp

end ExportLemmas

/-- C1.  exportPage processes every identity at most once per run: a call
on an identity already in the processed set returns the unchanged state
with an empty trace (no remote call, no filesystem effect, no log); a
call on a fresh identity inserts it, and the processed set only ever
grows (never a removal or re-insertion), so each identity is converted
at most once in any trace; and with fuel exceeding the number of
retrievable identities not yet processed, the traversal returns, also
on cyclic or redundantly referenced trees. -/
theorem C1_at_most_once (env : Env) (fuel : Nat) (pid dir : String)
    (s : Finset String) :
    (pid ∈ s → exportPage env fuel pid dir s = some (s, [])) ∧
    (∀ s' tr, exportPage env fuel pid dir s = some (s', tr) →
      s ⊆ s' ∧ (pid ∉ s → insert pid s ⊆ s') ∧
      ∀ q, convertCount tr q ≤ 1 ∧ (1 ≤ convertCount tr q → q ∉ s ∧ q ∈ s')) ∧
    (∀ D : Finset String, (∀ id props, env.retrieve id = .page props → id ∈ D) →
      (D \ s).card < fuel → (exportPage env fuel pid dir s).isSome) := by
  refine ⟨fun hm => exportPage_mem hm, ?_, ?_⟩
  · intro s' tr h
    exact ⟨export_mono _ _ _ _ _ _ _ h, fun hm => exportPage_insert hm h,
      fun q => export_convertOnce _ _ _ _ _ _ _ h q⟩
  · intro D hD hcard
    exact export_fuel _ _ _ hD _ _ _ hcard

/-- C1 witness: the theorem applied on the two-page cyclic workspace;
the membership no-op at an inserted identity, the growth of the
processed set on the real run, and the fuel bound three on the
two-page universe, which certifies that the cyclic traversal returns. -/
theorem C1_at_most_once_witness :
    exportPage cyclicEnv 3 "a" "out" (insert "a" ∅) = some (insert "a" ∅, []) ∧
    (({"a", "b"} : Finset String) \ (∅ : Finset String)).card < 3 ∧
    (exportPage cyclicEnv 3 "a" "out" ∅).isSome = true := by
  refine ⟨(C1_at_most_once cyclicEnv 3 "a" "out" (insert "a" ∅)).1 (by decide),
    by decide, ?_⟩
  apply (C1_at_most_once cyclicEnv 3 "a" "out" ∅).2.2 {"a", "b"}
  · intro id props hretr
    by_cases h1 : id = "a"
    · simp [h1]
    · by_cases h2 : id = "b"
      · simp [h2]
      · simp only [cyclicEnv, h1, h2] at hretr
        simp at hretr
  · decide

/-- C5.  A retrieval exception and a conversion exception inside one
page visit are caught there: the call still returns (it never
propagates an error), the trace records the error log with the page
identity, the identity stays in the processed set, the visit writes no
file and converts no other page after the failure point, and the
sibling loop continues with the state the failed node left behind. -/
theorem C5_error_isolation (env : Env) (fuel : Nat) (pid dir : String)
    (s : Finset String) (h : pid ∉ s) :
    (env.retrieve pid = .failure →
      exportPage env (fuel + 1) pid dir s =
        some (insert pid s, [Ev.apiRetrieve pid, Ev.logError pid])) ∧
    (∀ props, env.retrieve pid = .page props → env.convert pid = none →
      exportPage env (fuel + 1) pid dir s =
        some (insert pid s,
          [Ev.apiRetrieve pid, Ev.logExporting (getPageTitle props)] ++
          (getChildPages env pid).2 ++ [Ev.apiConvert pid, Ev.logError pid]) ∧
      (∀ p content, Ev.fsWrite p content ∉
        ([Ev.apiRetrieve pid, Ev.logExporting (getPageTitle props)] ++
         (getChildPages env pid).2 ++ [Ev.apiConvert pid, Ev.logError pid])) ∧
      (∀ q, Ev.apiConvert q ∈
          ([Ev.apiRetrieve pid, Ev.logExporting (getPageTitle props)] ++
           (getChildPages env pid).2 ++ [Ev.apiConvert pid, Ev.logError pid]) →
        q = pid)) ∧
    (∀ cprops cs, env.retrieve pid = .failure →
      exportChildren env (fuel + 1) ((pid, cprops) :: cs) dir s =
        match exportChildren env (fuel + 1) cs dir (insert pid s) with
        | none => none
        | some (s2, evs2) =>
          some (s2, [Ev.apiRetrieve pid, Ev.logError pid] ++ evs2)) := by
  refine ⟨fun hr => exportPage_failure h hr, ?_, ?_⟩
  · intro props hr hc
    refine ⟨exportPage_convert_none h hr hc, ?_, ?_⟩
    · intro p content hmem
      simp only [List.mem_append, List.mem_cons, List.not_mem_nil, or_false] at hmem
      rcases hmem with (hmem | hmem) | hmem
      · rcases hmem with hmem | hmem <;> cases hmem
      · rcases getChildPages_evs_shape _ hmem with heq | ⟨q, heq⟩ | ⟨q, heq⟩ <;>
          cases heq
      · rcases hmem with hmem | hmem <;> cases hmem
    · intro q hmem
      simp only [List.mem_append, List.mem_cons, List.not_mem_nil, or_false] at hmem
      rcases hmem with (hmem | hmem) | hmem
      · rcases hmem with hmem | hmem <;> cases hmem
      · rcases getChildPages_evs_shape _ hmem with heq | ⟨r, heq⟩ | ⟨r, heq⟩ <;>
          cases heq
      · rcases hmem with hmem | hmem
        · injection hmem
        · cases hmem
  · intro cprops cs hr
    rw [exportChildren_cons]
    rw [exportPage_failure h hr]

/-- C5 witness: on the concrete workspace, the conversion failure of
page bad and the retrieval failure of page err are both contained. -/
theorem C5_error_isolation_witness :
    exportPage witEnv 1 "err" "out" ∅ =
      some (insert "err" ∅, [Ev.apiRetrieve "err", Ev.logError "err"]) ∧
    exportPage witEnv 1 "bad" "out" ∅ =
      some (insert "bad" ∅,
        [Ev.apiRetrieve "bad", Ev.logExporting (getPageTitle [titleProp "Bad"])] ++
        (getChildPages witEnv "bad").2 ++ [Ev.apiConvert "bad", Ev.logError "bad"]) := by
  refine ⟨(C5_error_isolation witEnv 0 "err" "out" ∅ (by decide)).1 (by decide), ?_⟩
  exact ((C5_error_isolation witEnv 0 "bad" "out" ∅ (by decide)).2.1
    [titleProp "Bad"] (by decide) (by decide)).1

/-- C6.  A page whose retrieval returns a partial record is logged and
skipped: the call returns with exactly the retrieval and the skip log in
its trace, so it writes no file, creates no directory, converts
nothing, and recurses into no subtree, while the identity is inserted
into the processed set and raises the reported processed count by
one. -/
theorem C6_restricted_skip (env : Env) (fuel : Nat) (pid dir : String)
    (s : Finset String) (h : pid ∉ s) (hr : env.retrieve pid = .restricted) :
    exportPage env (fuel + 1) pid dir s =
      some (insert pid s, [Ev.apiRetrieve pid, Ev.logSkip pid]) ∧
    pid ∈ insert pid s ∧
    (insert pid s).card = s.card + 1 ∧
    (∀ p content, Ev.fsWrite p content ∉ [Ev.apiRetrieve pid, Ev.logSkip pid]) ∧
    (∀ p, Ev.fsMkdir p ∉ [Ev.apiRetrieve pid, Ev.logSkip pid]) ∧
    (∀ q, Ev.apiConvert q ∉ [Ev.apiRetrieve pid, Ev.logSkip pid]) := by
  refine ⟨exportPage_restricted h hr, Finset.mem_insert_self _ _,
    Finset.card_insert_of_not_mem h, ?_, ?_, ?_⟩
  · intro p content hmem
    simp at hmem
  · intro p hmem
    simp at hmem
  · intro q hmem
    simp at hmem

/-- C6 witness: the restricted page r of the concrete workspace. -/
theorem C6_restricted_skip_witness :
    exportPage witEnv 1 "r" "out" ∅ =
      some (insert "r" ∅, [Ev.apiRetrieve "r", Ev.logSkip "r"]) ∧
    (insert "r" (∅ : Finset String)).card = (∅ : Finset String).card + 1 := by
  have h := C6_restricted_skip witEnv 0 "r" "out" ∅ (by decide) (by decide)
  exact ⟨h.1, h.2.2.1⟩

/-- C10.  A child block whose retrieval succeeds with a partial record
is dropped silently during listing: it never enters the children list
(so it gets no navigation link and no recursive visit), the listing
trace shows its retrieval but no log line for it, and no exportPage
call on any other identity ever inserts it into the processed set. -/
theorem C10_restricted_child_dropped (env : Env) (pid cid : String)
    (hrest : env.retrieve cid = .restricted) :
    (∀ c ∈ (getChildPages env pid).1, c.1 ≠ cid) ∧
    Ev.logChildError cid ∉ (getChildPages env pid).2 ∧
    Ev.logSkip cid ∉ (getChildPages env pid).2 ∧
    (∀ block ∈ env.childBlocks pid, block.hasTypeField = true →
      block.type = "child_page" → block.id = cid →
      Ev.apiRetrieve cid ∈ (getChildPages env pid).2) ∧
    (∀ fuel q dir s s' tr, exportPage env fuel q dir s = some (s', tr) →
      cid ≠ q → cid ∉ s → cid ∉ s') := by
  refine ⟨?_, ?_, ?_, ?_, ?_⟩
  · intro c hc hcon
    have hcp := getChildPages_children c hc
    rw [hcon, hrest] at hcp
    cases hcp
  · intro hmem
    rcases childFold_childError hmem with hmem2 | hfail
    · simp at hmem2
    · rw [hrest] at hfail
      cases hfail
  · intro hmem
    rcases getChildPages_evs_shape _ hmem with heq | ⟨q, heq⟩ | ⟨q, heq⟩ <;>
      cases heq
  · intro block hb ht hty hid
    have := @childFold_retrieve_mem env _ _ hb ht hty
      ([], [Ev.apiListChildren pid])
    rw [hid] at this
    exact this
  · intro fuel q dir s s' tr hexp hne hns
    exact export_noInsert fuel env hrest q dir s s' tr hexp hne hns

/-- C10 witness: the restricted child r of parent p in the concrete
workspace: absent from the children list, silently dropped after its
retrieval, and never inserted by the sibling exports. -/
theorem C10_restricted_child_dropped_witness :
    (∀ c ∈ (getChildPages witEnv "p").1, c.1 ≠ "r") ∧
    Ev.logChildError "r" ∉ (getChildPages witEnv "p").2 ∧
    Ev.apiRetrieve "r" ∈ (getChildPages witEnv "p").2 := by
  have h := C10_restricted_child_dropped witEnv "p" "r" (by decide)
  exact ⟨h.1, h.2.1, h.2.2.2.1 ⟨true, "child_page", "r"⟩ (by decide) rfl rfl rfl⟩

/-- C4 counterexample.  The claim requires a skipped occurrence (one
whose target is not a network URL) to stay unchanged and a successful
occurrence to be replaced in place; but the source replaces the first
occurrence of the matched text in the whole document, so when an
earlier skipped occurrence's span contains the same text the rewrite
lands there instead: on aliasDoc the result rewrites inside the first,
skipped occurrence and leaves the matched second occurrence with its
original URL, instead of the claimed output. -/
theorem C4_rehost_counterexample :
    (processImages dlEnv aliasDoc "out").1 =
      "![b](![a](./images/image-1.png)![a](https://www.notion.so/x.png)" ∧
    (processImages dlEnv aliasDoc "out").1 ≠
      "![b](![a](https://www.notion.so/x.png)![a](./images/image-1.png)" := by
  exact ⟨by decide, by decide⟩

lemma processImagesStep_md_of_download_none {env : Env} {idir : String}
    {acc : ImgAcc} {m : ImageMatch}
    (hd : env.download (String.mk m.url) = none) :
    (processImagesStep env idir acc m).md = acc.md := by
  by_cases h1 : (!(("http://".data).isPrefixOf m.url) &&
      !(("https://".data).isPrefixOf m.url)) = true
  · simp [processImagesStep, h1]
  · cases hp : parseHttpUrl m.url with
    | none => simp [processImagesStep, h1, hp]
    | some parts =>
      by_cases h2 : (!containsSub ("notion.so".data) parts.hostname) = true
      · simp [processImagesStep, h1, hp, h2]
      · simp [processImagesStep, h1, hp, h2, hd]

lemma imgFold_md_of_download_none {env : Env} {idir : String}
    (hdall : ∀ u, env.download u = none) :
    ∀ (ms : List ImageMatch) (acc : ImgAcc),
      (ms.foldl (processImagesStep env idir) acc).md = acc.md := by
  intro ms
  induction ms with
  | nil => intro acc; rfl
  | cons m ms ih =>
    intro acc
    rw [List.foldl_cons, ih]
    exact processImagesStep_md_of_download_none (hdall _)

/-- C4 (amended).  Rehosting walks the image occurrences left to right:
an occurrence whose host passes the domain test and whose download
succeeds is rewritten to the local images path with its alt text kept
and sequence numbers counted 1-based over the successful downloads, a
non-network target and an out-of-domain host stay unchanged, a missing
extension defaults to png, and a failed download keeps the document
text unchanged at that step while later occurrences are still
processed — in general, when every download fails the document text is
returned character-for-character unchanged.  Two divergences from the
claim as stated: the rewrite targets the first occurrence of the
matched text, which is the occurrence itself except when an earlier
skipped span aliases it (see the counterexample); and the domain test
is a substring test on the hostname, so an unrelated host that merely
contains notion.so is mirrored too. -/
theorem C4_rehost_amended :
    (processImages dlEnv "![a](https://www.notion.so/x.png)" "out").1 =
      "![a](./images/image-1.png)" ∧
    containsSub ("https://www.notion.so/x.png".data)
      ((processImages dlEnv "![a](https://www.notion.so/x.png)" "out").1.data) =
        false ∧
    (processImages dlEnv "![a](./local.png)" "out").1 = "![a](./local.png)" ∧
    (processImages dlEnv
        "![p](https://www.notion.so/a.jpg) ![q](https://www.notion.so/b.png)"
        "out").1 =
      "![p](./images/image-1.jpg) ![q](./images/image-2.png)" ∧
    (processImages dlEnv "![a](https://example.com/x.png)" "out").1 =
      "![a](https://example.com/x.png)" ∧
    (processImages dlEnv "![a](https://www.notion.so/noext)" "out").1 =
      "![a](./images/image-1.png)" ∧
    (processImages dlEnv "![a](https://xnotion.sox.example/x.png)" "out").1 =
      "![a](./images/image-1.png)" ∧
    (processImages dlMixedEnv
        "![a](https://www.notion.so/x.png) ![b](https://www.notion.so/y.png)"
        "out").1 =
      "![a](https://www.notion.so/x.png) ![b](./images/image-1.png)" ∧
    (∀ env2 : Env, (∀ u, env2.download u = none) →
      ∀ doc pd : String, (processImages env2 doc pd).1 = doc) := by
  refine ⟨by decide, by decide, by decide, by decide, by decide, by decide,
    by decide, by decide, ?_⟩
  intro env2 hall doc pd
  unfold processImages
  by_cases hE : (scanImages doc.data).isEmpty = true
  · simp [hE]
  · simp only [hE, Bool.false_eq_true, if_false]
    rw [imgFold_md_of_download_none hall]

/-- C4 witness: the general failed-download conjunct applied to an
environment whose downloads all fail. -/
theorem C4_rehost_amended_witness :
    (∀ u, dlFailEnv.download u = none) ∧
    (processImages dlFailEnv "![a](https://www.notion.so/x.png)" "out").1 =
      "![a](https://www.notion.so/x.png)" := by
  refine ⟨fun u => rfl, ?_⟩
  exact C4_rehost_amended.2.2.2.2.2.2.2.2 dlFailEnv (fun u => rfl)
    "![a](https://www.notion.so/x.png)" "out"

/-- C7 counterexample.  The claim says the images subdirectory exists
only when some reference was successfully rehosted; but the source
creates it as soon as the regex finds any occurrence: a document with a
single local image reference is returned unchanged, yet the directory
is created. -/
theorem C7_images_dir_counterexample :
    processImages dlEnv "![a](./local.png)" "out" =
      ("![a](./local.png)", [Ev.fsMkdir (pathJoin "out" "images")]) := by decide

/-- C7 (amended).  A document without image occurrences is returned
unchanged with no directory side effects; a document with at least one
occurrence causes exactly one creation of the images subdirectory,
first in the trace and regardless of whether any occurrence is
successfully rehosted, and the remaining events are image writes and
logs only (no further directory creation). -/
theorem C7_images_dir_amended (env : Env) (md dir : String) :
    (scanImages md.data = [] → processImages env md dir = (md, [])) ∧
    (scanImages md.data ≠ [] →
      ∃ rest, (processImages env md dir).2 =
        Ev.fsMkdir (pathJoin dir "images") :: rest ∧
        ∀ e ∈ rest, imgEv e = true) := by
  constructor
  · intro h
    simp [processImages, h]
  · intro h
    have hE : (scanImages md.data).isEmpty = false := by
      simpa [List.isEmpty_iff] using h
    obtain ⟨extra, he, hp⟩ := @imgFold_evs env (pathJoin dir "images")
      (scanImages md.data) ⟨md.data, 1, [Ev.fsMkdir (pathJoin dir "images")]⟩
    refine ⟨extra, ?_, hp⟩
    simp only [processImages, hE, Bool.false_eq_true, if_false]
    simpa using he

/-- C7 witness: the amended theorem applied to a document without
images and to a document with one rehosted image. -/
theorem C7_images_dir_amended_witness :
    processImages dlEnv "no images here" "out" = ("no images here", []) ∧
    ∃ rest, (processImages dlEnv "![a](https://www.notion.so/x.png)" "out").2 =
      Ev.fsMkdir (pathJoin "out" "images") :: rest ∧ ∀ e ∈ rest, imgEv e = true := by
  exact ⟨(C7_images_dir_amended dlEnv "no images here" "out").1 (by decide),
    (C7_images_dir_amended dlEnv "![a](https://www.notion.so/x.png)" "out").2
      (by decide)⟩

lemma cyclicServer_none : ∀ fuel,
    downloadImage cyclicServer fuel "https://www.notion.so/a" = none ∧
    downloadImage cyclicServer fuel "https://www.notion.so/b" = none := by
  intro fuel
  induction fuel with
  | zero => exact ⟨rfl, rfl⟩
  | succ f ih =>
    constructor
    · show downloadImage cyclicServer (f + 1) "https://www.notion.so/a" = none
      unfold downloadImage
      simp only [cyclicServer, if_pos rfl]
      norm_num
      exact ih.2
    · show downloadImage cyclicServer (f + 1) "https://www.notion.so/b" = none
      unfold downloadImage
      simp only [cyclicServer]
      norm_num
      exact ih.1

/-- C8 counterexample.  The claim bounds the number of redirects the
engine follows, so that every single-image download terminates; but the
source re-issues the request on every 301 or 302 with a Location, with
no bound: against the two-URL cyclic server, no amount of fuel settles
the download. -/
theorem C8_redirect_counterexample :
    ¬ ∃ fuel,
      (downloadImage cyclicServer fuel "https://www.notion.so/a").isSome = true := by
  rintro ⟨fuel, hf⟩
  rw [(cyclicServer_none fuel).1] at hf
  cases hf

/-- C8 (amended).  The engine follows every 301 or 302 response that
carries a Location by re-issuing the request against it, without any
bound on their number, so the download of a single image terminates
exactly when its redirect chain is finite: whenever the chain reaches a
non-redirecting answer within n steps, the download settles within
n + 1 requests; and a non-redirect, non-success status makes that
single download fail (a redirect without a Location falls through to
the same failure). -/
theorem C8_download_amended (server : String → HttpResult) (url : String)
    (n fuel : Nat) :
    (chainTerminates server n url = true → n < fuel →
      (downloadImage server fuel url).isSome = true) ∧
    (∀ code loc, server url = .response code loc → ¬(code = 301 ∨ code = 302) →
      code ≠ 200 → 0 < fuel → downloadImage server fuel url = some false) := by
  constructor
  · induction n generalizing url fuel with
    | zero =>
      intro hterm hfuel
      cases fuel with
      | zero => omega
      | succ f =>
        unfold downloadImage
        cases hs : server url with
        | netError => rfl
        | response code loc =>
          unfold chainTerminates at hterm
          rw [hs] at hterm
          dsimp only
          dsimp only at hterm
          by_cases hred : code = 301 ∨ code = 302
          · rw [if_pos hred]
            rw [if_pos hred] at hterm
            cases loc with
            | some r => simp at hterm
            | none => rfl
          · rw [if_neg hred]
            by_cases h200 : code ≠ 200
            · rw [if_pos h200]; rfl
            · rw [if_neg h200]; rfl
    | succ k ih =>
      intro hterm hfuel
      cases fuel with
      | zero => omega
      | succ f =>
        unfold downloadImage
        cases hs : server url with
        | netError => rfl
        | response code loc =>
          unfold chainTerminates at hterm
          rw [hs] at hterm
          dsimp only
          dsimp only at hterm
          by_cases hred : code = 301 ∨ code = 302
          · rw [if_pos hred]
            rw [if_pos hred] at hterm
            cases loc with
            | some r => exact ih r f hterm (by omega)
            | none => rfl
          · rw [if_neg hred]
            by_cases h200 : code ≠ 200
            · rw [if_pos h200]; rfl
            · rw [if_neg h200]; rfl
  · intro code loc hs hnred hn200 hpos
    cases fuel with
    | zero => omega
    | succ f =>
      unfold downloadImage
      rw [hs]
      dsimp only
      rw [if_neg hnred, if_pos hn200]

/-- C8 witness: the one-hop redirect chain settles with two requests,
and the not-found server fails the single download. -/
theorem C8_download_amended_witness :
    chainTerminates oneHopServer 1 "https://www.notion.so/start" = true ∧
    (downloadImage oneHopServer 2 "https://www.notion.so/start").isSome = true ∧
    downloadImage notFoundServer 1 "https://www.notion.so/x.png" = some false := by
  refine ⟨by decide, ?_, ?_⟩
  · exact (C8_download_amended oneHopServer "https://www.notion.so/start" 1 2).1
      (by decide) (by decide)
  · exact (C8_download_amended notFoundServer "https://www.notion.so/x.png" 0 1).2
      404 none rfl (by decide) (by decide) (by decide)

/-- C9.  One export run is a pure function of the remote tree, and its
filesystem effect is idempotent: every write carries its full content
and every directory creation is idempotent, so applying the trace of a
completed run a second time to the filesystem it produced changes
nothing; two runs from fresh processed sets against an unchanged tree
therefore leave byte-identical file trees. -/
theorem C9_idempotent (env : Env) (fuel : Nat) (s' : Finset String)
    (tr : List Ev) (fs : FileSystem)
    (_h : exportAll env fuel = some (s', tr)) :
    applyTrace (applyTrace fs tr) tr = applyTrace fs tr :=
  applyTrace_idem tr fs

/-- C2.  When a visited parent has children, its written document is the
rehosted body followed by the Subnotes heading and one bullet link per
child in listing order, the link for a child naming exactly the
sanitization of that child's title; every listed child was retrieved in
full at listing time, and any later visit of that child that reaches
its own write (same environment, child not yet processed, conversion
succeeding) writes the file with exactly the name the parent's link
predicts, inside the parent's child directory; a parent with no
children gets the rehosted body alone, with no navigation section. -/
theorem C2_navigation (env : Env) (fuel : Nat) (pid dir : String)
    (s s' : Finset String) (tr : List Ev) (props : List PageProperty) (md : String)
    (h : exportPage env fuel pid dir s = some (s', tr)) (hm : pid ∉ s)
    (hr : env.retrieve pid = .page props) (hc : env.convert pid = some md) :
    ((getChildPages env pid).1 = [] →
      Ev.fsWrite (pathJoin dir (sanitizeFileName (getPageTitle props) ++ ".md"))
        (processImages env md dir).1 ∈ tr) ∧
    ((getChildPages env pid).1 ≠ [] →
      Ev.fsWrite (pathJoin dir (sanitizeFileName (getPageTitle props) ++ ".md"))
        ((processImages env md dir).1 ++ "\n\n## Subnotes\n\n" ++
          String.join ((getChildPages env pid).1.map
            (childLink (sanitizeFileName (getPageTitle props))))) ∈ tr) ∧
    ((getChildPages env pid).1.map
        (childLink (sanitizeFileName (getPageTitle props)))).length =
      (getChildPages env pid).1.length ∧
    (∀ c ∈ (getChildPages env pid).1,
      env.retrieve c.1 = RetrievalResult.page c.2 ∧
      childLink (sanitizeFileName (getPageTitle props)) c =
        "- [" ++ getPageTitle c.2 ++ "](./" ++
          sanitizeFileName (getPageTitle props) ++ "/" ++
          sanitizeFileName (getPageTitle c.2) ++ ".md)\n") ∧
    (∀ c ∈ (getChildPages env pid).1, ∀ fuel2 (s2 s2' : Finset String)
        (tr2 : List Ev) (md2 : String),
      exportPage env fuel2 c.1
          (pathJoin dir (sanitizeFileName (getPageTitle props))) s2 =
        some (s2', tr2) →
      c.1 ∉ s2 → env.convert c.1 = some md2 →
      ∃ content, Ev.fsWrite
        (pathJoin (pathJoin dir (sanitizeFileName (getPageTitle props)))
          (sanitizeFileName (getPageTitle c.2) ++ ".md")) content ∈ tr2) := by
  cases fuel with
  | zero => rw [exportPage_zero hm] at h; cases h
  | succ f =>
    refine ⟨?_, ?_, List.length_map _ _, ?_, ?_⟩
    · intro hch
      rw [exportPage_leaf hm hr hc hch] at h
      simp only [Option.some_inj, Prod.mk.injEq] at h
      obtain ⟨-, rfl⟩ := h
      simp
    · intro hch
      rw [exportPage_with_children hm hr hc hch] at h
      cases h2 : exportChildren env f (getChildPages env pid).1
          (pathJoin dir (sanitizeFileName (getPageTitle props)))
          (insert pid s) with
      | none => rw [h2] at h; simp at h
      | some p2 =>
        obtain ⟨s2, evs2⟩ := p2
        rw [h2] at h
        dsimp only at h
        simp only [Option.some_inj, Prod.mk.injEq] at h
        obtain ⟨-, rfl⟩ := h
        rw [navSection_eq, ← String.append_assoc]
        simp
    · intro c hc2
      exact ⟨getChildPages_children c hc2, rfl⟩
    · intro c hc2 fuel2 s2 s2' tr2 md2 h2 hm2 hcv2
      exact exportPage_own_write h2 hm2 (getChildPages_children c hc2) hcv2

/-- C2 witness: the concrete parent with children Child A and Child B;
its write event carries the navigation section, and the visit of child
c1 into the child directory writes the predicted filename. -/
theorem C2_navigation_witness :
    ∃ s' tr, exportPage witEnv 3 "p" "out" ∅ = some (s', tr) ∧
      Ev.fsWrite (pathJoin "out" (sanitizeFileName (getPageTitle [titleProp "Parent"]) ++ ".md"))
        ((processImages witEnv "hello" "out").1 ++ "\n\n## Subnotes\n\n" ++
          String.join ((getChildPages witEnv "p").1.map
            (childLink (sanitizeFileName (getPageTitle [titleProp "Parent"]))))) ∈ tr ∧
      (∃ s2' tr2 content, exportPage witEnv 2 "c1" (pathJoin "out"
          (sanitizeFileName (getPageTitle [titleProp "Parent"]))) ∅ = some (s2', tr2) ∧
        Ev.fsWrite (pathJoin (pathJoin "out" (sanitizeFileName (getPageTitle [titleProp "Parent"])))
          (sanitizeFileName (getPageTitle [titleProp "Child A"]) ++ ".md")) content ∈ tr2) := by
  have hsome : (exportPage witEnv 3 "p" "out" ∅).isSome = true := by decide
  obtain ⟨⟨s', tr⟩, heq⟩ := Option.isSome_iff_exists.mp hsome
  have h := C2_navigation witEnv 3 "p" "out" ∅ s' tr [titleProp "Parent"] "hello"
    heq (by decide) (by decide) (by decide)
  have hsome2 : (exportPage witEnv 2 "c1" (pathJoin "out"
      (sanitizeFileName (getPageTitle [titleProp "Parent"]))) ∅).isSome = true := by decide
  obtain ⟨⟨s2', tr2⟩, heq2⟩ := Option.isSome_iff_exists.mp hsome2
  have hcmem : ("c1", [titleProp "Child A"]) ∈ (getChildPages witEnv "p").1 := by decide
  obtain ⟨content, hcw⟩ := h.2.2.2.2 ("c1", [titleProp "Child A"]) hcmem 2 ∅ s2' tr2
    "hello" heq2 (by decide) (by decide)
  exact ⟨s', tr, heq, h.2.1 (by decide), s2', tr2, content, heq2, hcw⟩

/-- C9 witness: the full export of the concrete workspace completes,
and a second application of its trace to the resulting filesystem is
the identity. -/
theorem C9_idempotent_witness :
    ∃ s' tr, exportAll witEnv 3 = some (s', tr) ∧
      applyTrace (applyTrace emptyFS tr) tr = applyTrace emptyFS tr := by
  have hsome : (exportAll witEnv 3).isSome = true := by decide
  obtain ⟨⟨s', tr⟩, heq⟩ := Option.isSome_iff_exists.mp hsome
  exact ⟨s', tr, heq, C9_idempotent witEnv 3 s' tr emptyFS heq⟩

end NotionToMd
